import Mathlib

/-!
Shallow embedding of the BGHMatcher core (src/BGHMatcher.h, src/BGHMatcher.cpp):
the binary-gradient pixel encoder, the 256-flag membership set, the Generalized
Hough vote-table builder and the two voting transforms.

Modelling conventions:
* An image is a pair of dimensions with a pixel function (grayscale intensities
  and encoded CV_8U bytes are both `Nat`-valued; encoder outputs are < 256).
* The `double` scale factor is modelled by `ℚ` (exact real arithmetic);
  `static_cast<int>` is truncation toward zero (`truncQ`).
* `std::map` keyed by `uint8_t` resp. by `cv::Point` under `cmpCvPoint`
  (x first, then y) is modelled by a sorted association list with the same
  insertion/increment behaviour (`tblInc`, `mapInc`).
* Vote counts are `uint16_t` in the source; they are modelled by `Nat`.
  With the scale clamped to [0.1, 10.0] a single (code, offset) entry can
  merge at most 19 × 19 = 361 template pixels, so the 16-bit counter can
  never wrap and the unbounded model agrees with the source.
* The accumulator `cv::Mat` is modelled as a total function on ℤ × ℤ so that
  an out-of-bounds write performed by the unchecked bounded sweep is visible
  in the model instead of being undefined behaviour.
-/

namespace BGHMatcher

/-- A 2D grid of `Nat`-valued pixels (models a single-channel `cv::Mat`).
`px i j` is the pixel at row `i`, column `j`. -/
structure Img where
  rows : Nat
  cols : Nat
  px : Nat → Nat → Nat

/-- Row-major list of all pixel coordinates `(i, j)` of a `rows × cols` grid,
the traversal order of the nested loops in the source. -/
def pixList (rows cols : Nat) : List (Nat × Nat) :=
  (List.range rows).flatMap (fun i => (List.range cols).map (fun j => (i, j)))

/-- Membership "set" for values 0-255 implemented as 256 bit flags
(`T_256_flags` in BGHMatcher.h): 8 words `uint32_t bits[8]`. -/
structure T_256_flags where
  bits : List Nat
deriving DecidableEq

/-- Zero-initialized flags (`memset(bits, 0, sizeof(bits))`). -/
def T_256_flags.empty : T_256_flags := ⟨List.replicate 8 0⟩

/-- `void set(const uint8_t n) \x7b bits[n >> 5] |= (1 << (n & 0x1F)); \x7d` -/
def T_256_flags.set (f : T_256_flags) (n : Nat) : T_256_flags :=
  ⟨f.bits.set (n >>> 5) ((f.bits.getD (n >>> 5) 0) ||| (1 <<< (n &&& 0x1F)))⟩

/-- `bool get(const uint8_t n) \x7b return (bits[n >> 5] & (1 << (n & 0x1F))) ? true : false; \x7d`
(testing bit `n & 0x1F` of word `n >> 5`). -/
def T_256_flags.get (f : T_256_flags) (n : Nat) : Bool :=
  (f.bits.getD (n >>> 5) 0).testBit (n &&& 0x1F)

/-- One iteration of the inner loop of `create_adjacent_bits_set`:
the `uint8_t` value `rot_bit_mask_L | rot_bit_mask_R` for a run of
`numBits` contiguous low bits rotated (circularly, in 8 bits) by `j`. -/
def adjRot (numBits j : Nat) : Nat :=
  let bit_mask := (1 <<< numBits) - 1
  (((bit_mask <<< j)) % 256) ||| (bit_mask >>> (8 - j))

/-- `create_adjacent_bits_set` (BGHMatcher.cpp): for each set bit `i` of
`mask`,mark all 8 circular rotations of the `(i+1)`-contiguous-bit pattern. -/
def create_adjacent_bits_set (mask : Nat) : T_256_flags :=
  (List.range 8).foldl
    (fun f i =>
      if mask.testBit i then
        (List.range 8).foldl (fun g j => g.set (adjRot (i + 1) j)) f
      else f)
    T_256_flags.empty

/-- The 8-neighbor "greater than" byte for the interior pixel `(i, j)`
of `cmp8NeighborsGTRng`, including the (max − min) range gate. -/
def encPixel (img : Img) (rng : Nat) (i j : Nat) : Nat :=
  let q := img.px i j
  let n0p := img.px i (j + 1)
  let npp := img.px (i + 1) (j + 1)
  let np0 := img.px (i + 1) j
  let npn := img.px (i + 1) (j - 1)
  let n0n := img.px i (j - 1)
  let nnn := img.px (i - 1) (j - 1)
  let nn0 := img.px (i - 1) j
  let nnp := img.px (i - 1) (j + 1)
  let umax := if rng > 0 then
    max (max (max (max (max (max (max (max q n0p) npp) np0) npn) n0n) nnn) nn0) nnp
    else q
  let umin := if rng > 0 then
    min (min (min (min (min (min (min (min q n0p) npp) np0) npn) n0n) nnn) nn0) nnp
    else q
  if umax - umin ≥ rng then
    (if q > n0p then 1 else 0) +
    (if q > npp then 2 else 0) +
    (if q > np0 then 4 else 0) +
    (if q > npn then 8 else 0) +
    (if q > n0n then 16 else 0) +
    (if q > nnn then 32 else 0) +
    (if q > nn0 then 64 else 0) +
    (if q > nnp then 128 else 0)
  else 0

/-- `cmp8NeighborsGTRng` (BGHMatcher.h): output is a zeroed CV_8U image of the
same size; the loops write `encPixel` at every interior pixel
(`1 ≤ i < rows − 1`, `1 ≤ j < cols − 1`) and leave the border at 0. -/
def cmp8NeighborsGTRng (img : Img) (rng : Nat) : Img :=
  { rows := img.rows
    cols := img.cols
    px := fun i j =>
      if 1 ≤ i ∧ i + 1 < img.rows ∧ 1 ≤ j ∧ j + 1 < img.cols then
        encPixel img rng i j
      else 0 }

/-- `cv::Point`: x (column displacement) first, then y (row displacement). -/
abbrev Pt := ℤ × ℤ

/-- `cmpCvPoint` (BGHMatcher.cpp): sort points by x then by y. -/
def cmpCvPoint (a b : Pt) : Bool :=
  a.1 < b.1 || (a.1 == b.1 && a.2 < b.2)

/-- The constant `0.1` as an exact rational (kernel-transparent literal). -/
def oneTenth : ℚ := ⟨1, 10, by norm_num, by norm_num⟩

/-- The constant `10.0` as an exact rational (kernel-transparent literal). -/
def qTen : ℚ := ⟨10, 1, by norm_num, by norm_num⟩

/-- The scale sanity check of `create_ghough_table`:
`if (fac < 0.1) fac = 0.1; if (fac > 10.0) fac = 10.0;`. -/
def clampScale (scale : ℚ) : ℚ :=
  let fac := if scale < oneTenth then oneTenth else scale
  if fac > qTen then qTen else fac

/-- `static_cast<int>(fac * x)`: the exact rational product
`(fac.num * x) / fac.den` truncated toward zero (`Int.tdiv`). -/
def truncMul (fac : ℚ) (x : ℤ) : ℤ :=
  Int.tdiv (fac.num * x) (fac.den : ℤ)

/-- The scaled centering offset recorded for pixel `(i, j)`:
`offset_pt = Point(col_offset - j, row_offset - i)` with both components
multiplied by the clamped factor and truncated to `int`. -/
def scaledPt (fac : ℚ) (row_offset col_offset : Nat) (i j : Nat) : Pt :=
  (truncMul fac ((col_offset : ℤ) - (j : ℤ)),
   truncMul fac ((row_offset : ℤ) - (i : ℤ)))

/-- `lookup_table[uu][offset_pt]++` on the inner `std::map<cv::Point, uint16_t>`
(ordered by `cmpCvPoint`): insert the point with count 1, or increment the
count of an existing entry. -/
def mapInc (m : List (Pt × Nat)) (p : Pt) : List (Pt × Nat) :=
  match m with
  | [] => [(p, 1)]
  | (q, v) :: rest =>
    if cmpCvPoint p q then (p, 1) :: (q, v) :: rest
    else if p = q then (q, v + 1) :: rest
    else (q, v) :: mapInc rest p

/-- `lookup_table[uu][offset_pt]++` on the outer
`std::map<uint8_t, std::map<cv::Point, uint16_t>>` (ordered by byte value). -/
def tblInc (t : List (Nat × List (Pt × Nat))) (c : Nat) (p : Pt) :
    List (Nat × List (Pt × Nat)) :=
  match t with
  | [] => [(c, mapInc [] p)]
  | (c', m) :: rest =>
    if c < c' then (c, mapInc [] p) :: (c', m) :: rest
    else if c = c' then (c', mapInc m p) :: rest
    else (c', m) :: tblInc rest c p

/-- The dynamically built `std::map<uint8_t, std::map<cv::Point, uint16_t>>`. -/
abbrev Lut := List (Nat × List (Pt × Nat))

/-- Reading slot `c` of the dynamic map (empty list when absent). -/
def lutGet (t : Lut) (c : Nat) : List (Pt × Nat) :=
  match t.find? (fun r => r.1 == c) with
  | some r => r.2
  | none => []

/-- Total vote weight a slot's list holds for offset `p`. -/
def listVotes (m : List (Pt × Nat)) (p : Pt) : Nat :=
  ((m.filter (fun e => e.1 == p)).map (fun e => e.2)).sum

/-- `rtable.total_votes` as accumulated while flattening: the sum of all
vote counts over all entries of all slots. -/
def lutTotalVotes (t : Lut) : Nat :=
  (t.map (fun r => (r.2.map (fun e => e.2)).sum)).sum

/-- `rtable.total_entries` as accumulated while flattening: the number of
(code, offset) entries over all slots. -/
def lutTotalEntries (t : Lut) : Nat :=
  (t.map (fun r => r.2.length)).sum

/-- The body of the pixel scan of `create_ghough_table`: if the gradient
pixel value (key) is in the set, add a vote at the scaled centering offset. -/
def tblStep (rbgrad : Img) (rflags : T_256_flags) (fac : ℚ)
    (row_offset col_offset : Nat) (t : Lut) (q : Nat × Nat) : Lut :=
  let uu := rbgrad.px q.1 q.2
  if rflags.get uu then tblInc t uu (scaledPt fac row_offset col_offset q.1 q.2)
  else t

/-- `T_ghough_table` (BGHMatcher.h) after `create_ghough_table` has filled it:
`sz` is the `cv::Size` (width, height) of the source encoded image, `lut` is
the per-code table (code-sorted, each slot point-sorted), and the two running
totals accumulated while flattening the STL maps. -/
structure GhoughTable where
  sz : Nat × Nat
  lut : Lut
  total_votes : Nat
  total_entries : Nat
deriving DecidableEq

/-- The `elem[key]` slot of the table: the (point, votes) list for a code
(empty for codes never inserted). -/
def GhoughTable.elem (t : GhoughTable) (c : Nat) : List (Pt × Nat) :=
  lutGet t.lut c

/-- Total vote weight the table holds for code `c` at offset `p`. -/
def GhoughTable.votesFor (t : GhoughTable) (c : Nat) (p : Pt) : Nat :=
  listVotes (t.elem c) p

/-- `create_ghough_table` (BGHMatcher.cpp): clamp the scale, take the center
`(rows/2, cols/2)` by integer division, scan all pixels row-major adding one
vote per member pixel at its scaled centering offset, then flatten the map
into the fixed structure, accumulating `total_votes` and `total_entries`. -/
def create_ghough_table (rbgrad : Img) (rflags : T_256_flags) (scale : ℚ) :
    GhoughTable :=
  let fac := clampScale scale
  let row_offset := rbgrad.rows / 2
  let col_offset := rbgrad.cols / 2
  let lut := (pixList rbgrad.rows rbgrad.cols).foldl
    (tblStep rbgrad rflags fac row_offset col_offset) []
  { sz := (rbgrad.cols, rbgrad.rows)
    lut := lut
    total_votes := lutTotalVotes lut
    total_entries := lutTotalEntries lut }

/-- Interior pixel coordinates swept by `apply_ghough_transform_allpix`:
`1 ≤ i < rows − 1`, `1 ≤ j < cols − 1`, row-major. -/
def interiorPix (rows cols : Nat) : List (Nat × Nat) :=
  (List.range' 1 (rows - 2)).flatMap
    (fun i => (List.range' 1 (cols - 2)).map (fun j => (i, j)))

/-- Pixel coordinates swept by the bounded `apply_ghough_transform`:
`i` in `[sz.height/2, rows − sz.height/2)`, `j` in `[sz.width/2, cols − sz.width/2)`
(with the `int` loop running zero times when the bounds cross), row-major. -/
def sweepPix (hh hw rows cols : Nat) : List (Nat × Nat) :=
  (List.range' hh (rows - hh - hh)).flatMap
    (fun i => (List.range' hw (cols - hw - hw)).map (fun j => (i, j)))

/-- The stream of candidate votes produced by sweeping `pix`:
for each source pixel `(i, j)` and each `(pt, votes)` entry of the slot for
its code, one event targeting `(my, mx) = (i + pt.y, j + pt.x)` with weight
`votes`.  An event is `((my, mx), weight)`. -/
def voteTargets (rimg : Img) (rtable : GhoughTable) (pix : List (Nat × Nat)) :
    List ((ℤ × ℤ) × Nat) :=
  pix.flatMap (fun q =>
    (rtable.elem (rimg.px q.1 q.2)).map (fun e =>
      (((q.1 : ℤ) + e.1.2, (q.2 : ℤ) + e.1.1), e.2)))

/-- The accumulator image: a zero-initialized grid of counts.  It is modelled
as a total function on ℤ × ℤ (`acc my mx`) so that the out-of-bounds writes
the unchecked sweep can perform are part of the model. -/
structure AccImg where
  rows : Nat
  cols : Nat
  acc : ℤ → ℤ → Nat

/-- `*pix += pt_votes[k].votes` at target cell `(my, mx)`. -/
def addVoteAt (a : ℤ → ℤ → Nat) (tgt : ℤ × ℤ) (w : Nat) : ℤ → ℤ → Nat :=
  fun my mx => if (my, mx) = tgt then a my mx + w else a my mx

/-- Replay a list of vote events with no bounds check (the bounded sweep). -/
def foldVotes (evs : List ((ℤ × ℤ) × Nat)) (a : ℤ → ℤ → Nat) : ℤ → ℤ → Nat :=
  evs.foldl (fun a e => addVoteAt a e.1 e.2) a

/-- Replay a list of vote events discarding any event whose target lies
outside a `rows × cols` grid (the per-vote range check of the all-pixel
sweep: `(mx >= 0) && (mx < cols) && (my >= 0) && (my < rows)`). -/
def foldVotesChecked (rows cols : Nat) (evs : List ((ℤ × ℤ) × Nat))
    (a : ℤ → ℤ → Nat) : ℤ → ℤ → Nat :=
  evs.foldl
    (fun a e =>
      if 0 ≤ e.1.2 ∧ e.1.2 < (cols : ℤ) ∧ 0 ≤ e.1.1 ∧ e.1.1 < (rows : ℤ) then
        addVoteAt a e.1 e.2
      else a)
    a

/-- `apply_ghough_transform` (BGHMatcher.h): zero the output, sweep only the
interior region `[table.sz/2, dim − table.sz/2)` in both axes, and add every
vote with no per-vote bounds check. -/
def apply_ghough_transform (rimg : Img) (rtable : GhoughTable) : AccImg :=
  { rows := rimg.rows
    cols := rimg.cols
    acc := foldVotes
      (voteTargets rimg rtable
        (sweepPix (rtable.sz.2 / 2) (rtable.sz.1 / 2) rimg.rows rimg.cols))
      (fun _ _ => 0) }

/-- `apply_ghough_transform_allpix` (BGHMatcher.h): zero the output, sweep all
pixels except the one-pixel border, range-check every vote and discard the
ones that would fall outside the output image. -/
def apply_ghough_transform_allpix (rimg : Img) (rtable : GhoughTable) : AccImg :=
  { rows := rimg.rows
    cols := rimg.cols
    acc := foldVotesChecked rimg.rows rimg.cols
      (voteTargets rimg rtable (interiorPix rimg.rows rimg.cols))
      (fun _ _ => 0) }

/-- Total weight of the events of a list that target cell `(my, mx)`. -/
def evsSumAt (evs : List ((ℤ × ℤ) × Nat)) (my mx : ℤ) : Nat :=
  ((evs.filter (fun e => e.1 = (my, mx))).map (fun e => e.2)).sum

/-- Whether byte value `c` occurs anywhere in the encoded image. -/
def codePresent (E : Img) (c : Nat) : Bool :=
  (pixList E.rows E.cols).any (fun q => E.px q.1 q.2 == c)

/-- The Membership Set holding exactly the nonzero byte values present in an
encoded image (the codes the template actually produces). -/
def presentFlags (E : Img) : T_256_flags :=
  ((List.range 256).filter (fun c => c != 0 && codePresent E c)).foldl
    T_256_flags.set T_256_flags.empty

/-- Zero-padding an image on all four sides by `pad` pixels: the encoded
template embedded in a larger canvas, so the all-pixel sweep covers the
template's center. -/
def padImg (E : Img) (pad : Nat) : Img :=
  { rows := E.rows + 2 * pad
    cols := E.cols + 2 * pad
    px := fun i j =>
      if pad ≤ i ∧ i < pad + E.rows ∧ pad ≤ j ∧ j < pad + E.cols then
        E.px (i - pad) (j - pad)
      else 0 }

/-- Number of set bits of an 8-bit value. -/
def popcount8 (v : Nat) : Nat :=
  ((List.range 8).filter (fun k => v.testBit k)).length

/-- The set of feature pixels of an encoded image: grid positions carrying a
nonzero code. -/
def memberSet (E : Img) : Finset (Nat × Nat) :=
  (Finset.range E.rows ×ˢ Finset.range E.cols).filter (fun b => E.px b.1 b.2 ≠ 0)

/-- Pairs `(b, a)` of grid positions with `b` a feature pixel, `a` carrying
the same code, and displacement `b − a` equal to `(dy, dx)`. -/
def pairSet (E : Img) (dy dx : ℤ) : Finset ((Nat × Nat) × (Nat × Nat)) :=
  (((Finset.range E.rows ×ˢ Finset.range E.cols)
      ×ˢ (Finset.range E.rows ×ˢ Finset.range E.cols))).filter
    (fun r => E.px r.1.1 r.1.2 ≠ 0 ∧ E.px r.2.1 r.2.2 = E.px r.1.1 r.1.2
      ∧ (r.1.1 : ℤ) - (r.2.1 : ℤ) = dy ∧ (r.1.2 : ℤ) - (r.2.2 : ℤ) = dx)

/-- The same pair count written as the accumulator computes it: for each
feature pixel `b`, the number of same-code pixels displaced by `(dy, dx)`. -/
def pairCount (E : Img) (dy dx : ℤ) : Nat :=
  ((pixList E.rows E.cols).map (fun b =>
    if E.px b.1 b.2 ≠ 0 then
      (pixList E.rows E.cols).countP (fun a =>
        E.px a.1 a.2 = E.px b.1 b.2
        ∧ (b.1 : ℤ) - (a.1 : ℤ) = dy ∧ (b.2 : ℤ) - (a.2 : ℤ) = dx)
    else 0)).sum

/-! ### Concrete inputs used by witnesses and counterexamples -/

/-- A 9×9 all-white image with a single black center pixel. -/
def img9w : Img := ⟨9, 9, fun i j => if i = 4 ∧ j = 4 then 0 else 255⟩

/-- The "4 adjacent bits" Membership Set (`N8_4ADJ = 1 << 3`). -/
def flags4adj : T_256_flags := create_adjacent_bits_set 8

/-- A 3×3 encoded image with a single code-1 pixel in its corner. -/
def imgT3 : Img := ⟨3, 3, fun i j => if i = 0 ∧ j = 0 then 1 else 0⟩

/-- A Membership Set holding only code 1. -/
def flagsCode1 : T_256_flags := T_256_flags.empty.set 1

/-- A 3×3 live encoded image that is code 1 everywhere. -/
def liveT3 : Img := ⟨3, 3, fun _ _ => 1⟩

/-- A literal 1×1-sized table (as `T_ghough_table` allows). -/
def tbl1x1 : GhoughTable := ⟨(1, 1), [], 0, 0⟩

/-- A 1×1 image. -/
def img1x1 : Img := ⟨1, 1, fun _ _ => 0⟩

/-- A literal table whose only entry carries an offset far outside any small
image (for exercising the all-pixel range check). -/
def tblFar : GhoughTable := ⟨(3, 3), [(1, [((100, 100), 2)])], 2, 1⟩

/-- A literal 2×2-sized table (both dimensions even). -/
def tblEven : GhoughTable := ⟨(2, 2), [], 0, 0⟩

/-- A 5×4 image. -/
def img5x4 : Img := ⟨5, 4, fun _ _ => 0⟩

/-- A 3×3 grayscale image with a single bright center dot. -/
def imgDot : Img := ⟨3, 3, fun i j => if i = 1 ∧ j = 1 then 5 else 0⟩

/-- A constant 3×3 grayscale image (no features at all). -/
def imgFlat : Img := ⟨3, 3, fun _ _ => 7⟩

/-! ### Lemmas about the 256-flag membership set -/

theorem T_256_flags.get_empty (v : Nat) : T_256_flags.empty.get v = false := by
  unfold T_256_flags.get T_256_flags.empty
  have h : (List.replicate 8 (0 : Nat)).getD (v >>> 5) 0 = 0 := by
    rcases Nat.lt_or_ge (v >>> 5) 8 with h | h
    · rw [List.getD_eq_getElem?_getD, List.getElem?_replicate, if_pos h]
      rfl
    · rw [List.getD_eq_getElem?_getD, List.getElem?_eq_none (by simpa using h)]
      rfl
  rw [h, Nat.zero_testBit]

theorem T_256_flags.length_set (f : T_256_flags) (n : Nat) :
    (f.set n).bits.length = f.bits.length := by
  unfold T_256_flags.set
  exact List.length_set f.bits _ _

theorem T_256_flags.get_set (f : T_256_flags) {n : Nat} (hn : n < 256)
    (hlen : f.bits.length = 8) (v : Nat) :
    (f.set n).get v = (decide (v = n) || f.get v) := by
  unfold T_256_flags.get T_256_flags.set
  have hsr : ∀ m : Nat, m >>> 5 = m / 32 := fun m => Nat.shiftRight_eq_div_pow m 5
  have hand : ∀ m : Nat, m &&& 0x1F = m % 32 := fun m => by
    have : (0x1F : Nat) = 2 ^ 5 - 1 := by norm_num
    rw [this, Nat.and_pow_two_sub_one_eq_mod]
  have hsl : (1 : Nat) <<< (n &&& 0x1F) = 2 ^ (n % 32) := by
    rw [hand, Nat.shiftLeft_eq, one_mul]
  have hwn : n >>> 5 < 8 := by rw [hsr]; omega
  simp only [List.getD_eq_getElem?_getD, List.getElem?_set]
  by_cases hw : n >>> 5 = v >>> 5
  · rw [if_pos hw, if_pos (by rw [hlen]; exact hwn)]
    simp only [Option.getD_some]
    rw [hsl, Nat.testBit_or, hand]
    by_cases hb : v % 32 = n % 32
    · have hv : v = n := by
        rw [hsr, hsr] at hw
        omega
      simp [hv, Nat.testBit_two_pow_self]
    · rw [Nat.testBit_two_pow_of_ne (fun h => hb h.symm)]
      have hv : ¬ v = n := by
        intro h
        exact hb (by rw [h])
      simp [hv, ← List.getD_eq_getElem?_getD, hw]
  · rw [if_neg hw]
    have hv : ¬ v = n := by
      intro h
      exact hw (by rw [h])
    simp [hv, ← List.getD_eq_getElem?_getD]

theorem T_256_flags.length_foldl_set (l : List Nat) (f : T_256_flags) :
    (l.foldl T_256_flags.set f).bits.length = f.bits.length := by
  induction l generalizing f with
  | nil => rfl
  | cons x xs ih =>
    rw [List.foldl_cons, ih, T_256_flags.length_set]

theorem T_256_flags.get_foldl_set (l : List Nat) (f : T_256_flags)
    (hlen : f.bits.length = 8) (hl : ∀ x ∈ l, x < 256) (v : Nat) :
    (l.foldl T_256_flags.set f).get v = (f.get v || l.any (fun x => v == x)) := by
  induction l generalizing f with
  | nil => simp
  | cons x xs ih =>
    rw [List.foldl_cons,
      ih (f.set x) (by rw [T_256_flags.length_set, hlen])
        (fun y hy => hl y (List.mem_cons_of_mem x hy)),
      T_256_flags.get_set f (hl x (List.mem_cons_self x xs)) hlen]
    simp only [List.any_cons]
    by_cases hv : v = x <;> simp [hv, Bool.or_comm, Bool.or_assoc, Bool.or_left_comm]

theorem adjRot_lt (numBits j : Nat) (h : numBits ≤ 8) : adjRot numBits j < 256 := by
  unfold adjRot
  have h1 : (((1 <<< numBits) - 1) <<< j) % 256 < 256 := Nat.mod_lt _ (by norm_num)
  have h2 : ((1 <<< numBits) - 1) >>> (8 - j) < 256 := by
    calc ((1 <<< numBits) - 1) >>> (8 - j) ≤ (1 <<< numBits) - 1 := by
          rw [Nat.shiftRight_eq_div_pow]
          exact Nat.div_le_self _ _
      _ < 256 := by
          rw [Nat.shiftLeft_eq, one_mul]
          have : 2 ^ numBits ≤ 2 ^ 8 := Nat.pow_le_pow_right (by norm_num) h
          omega
  have : (256 : Nat) = 2 ^ 8 := by norm_num
  rw [this] at h1 h2 ⊢
  exact Nat.or_lt_two_pow h1 h2

/-- Membership characterization of `create_adjacent_bits_set`: the byte `v` is
marked iff it is one of the 8 circular rotations of a run of `i + 1`
contiguous bits for some set bit `i` of the mask. -/
theorem get_create_adjacent_bits_set (mask v : Nat) :
    (create_adjacent_bits_set mask).get v =
      ((List.range 8).any fun i =>
        mask.testBit i && ((List.range 8).any fun j => v == adjRot (i + 1) j)) := by
  unfold create_adjacent_bits_set
  have main : ∀ (is : List Nat) (f : T_256_flags), f.bits.length = 8 →
      (∀ i ∈ is, i < 8) →
      ((is.foldl
        (fun f i =>
          if mask.testBit i then
            (List.range 8).foldl (fun g j => g.set (adjRot (i + 1) j)) f
          else f)
        f).get v
        = (f.get v || is.any fun i =>
            mask.testBit i && ((List.range 8).any fun j => v == adjRot (i + 1) j))) := by
    intro is
    induction is with
    | nil => simp
    | cons x xs ih =>
      intro f hlen his
      have hx : x < 8 := his x (List.mem_cons_self x xs)
      have hxs : ∀ i ∈ xs, i < 8 := fun i hi => his i (List.mem_cons_of_mem x hi)
      rw [List.foldl_cons]
      by_cases hbit : mask.testBit x
      · have hinner :
            ((List.range 8).foldl (fun g j => g.set (adjRot (x + 1) j)) f)
              = (((List.range 8).map (adjRot (x + 1))).foldl T_256_flags.set f) := by
          rw [List.foldl_map]
        have hlen2 :
            ((List.range 8).foldl (fun g j => g.set (adjRot (x + 1) j)) f).bits.length = 8 := by
          rw [hinner, T_256_flags.length_foldl_set]
          exact hlen
        rw [if_pos hbit, ih _ hlen2 hxs, hinner,
          T_256_flags.get_foldl_set _ f hlen
            (by
              intro y hy
              rcases List.mem_map.mp hy with ⟨j, _, rfl⟩
              exact adjRot_lt (x + 1) j (by omega))]
        simp [hbit, List.any_map, Function.comp_def, Bool.or_assoc]
      · rw [if_neg hbit, ih f hlen hxs]
        simp [hbit]
  rw [main (List.range 8) T_256_flags.empty rfl (by simp [List.mem_range]),
    T_256_flags.get_empty]
  simp

/-! ### Lemmas about the dynamically built lookup table -/

theorem cmpCvPoint_iff (a b : Pt) :
    cmpCvPoint a b = true ↔ a.1 < b.1 ∨ (a.1 = b.1 ∧ a.2 < b.2) := by
  simp [cmpCvPoint, Bool.or_eq_true, Bool.and_eq_true, decide_eq_true_eq]

theorem cmpCvPoint_trans {a b c : Pt} (h1 : cmpCvPoint a b = true)
    (h2 : cmpCvPoint b c = true) : cmpCvPoint a c = true := by
  rw [cmpCvPoint_iff] at h1 h2 ⊢
  rcases h1 with h1 | ⟨h1, h1'⟩ <;> rcases h2 with h2 | ⟨h2, h2'⟩ <;> omega

theorem cmpCvPoint_ne {a b : Pt} (h : cmpCvPoint a b = true) : a ≠ b := by
  rw [cmpCvPoint_iff] at h
  intro he
  rw [he] at h
  omega

theorem cmpCvPoint_total {a b : Pt} (h1 : cmpCvPoint a b = false) (h2 : a ≠ b) :
    cmpCvPoint b a = true := by
  have h1' : ¬(a.1 < b.1 ∨ (a.1 = b.1 ∧ a.2 < b.2)) := by
    rw [← cmpCvPoint_iff, h1]
    simp
  have h2' : ¬(a.1 = b.1 ∧ a.2 = b.2) := by
    rintro ⟨x, y⟩
    exact h2 (Prod.ext x y)
  rw [cmpCvPoint_iff]
  omega

/-- Per-slot sortedness: offsets strictly increasing under `cmpCvPoint`. -/
def innerSorted (m : List (Pt × Nat)) : Prop :=
  List.Pairwise (fun e f => cmpCvPoint e.1 f.1 = true) m

/-- Invariant of the dynamic map: code keys strictly sorted; each slot
nonempty, offset-sorted, and with all vote counts positive. -/
def lutWF (t : Lut) : Prop :=
  List.Pairwise (fun r s => r.1 < s.1) t ∧
  ∀ r ∈ t, r.2 ≠ [] ∧ innerSorted r.2 ∧ ∀ e ∈ r.2, 1 ≤ e.2

theorem lutWF_nil : lutWF [] := ⟨List.Pairwise.nil, by simp⟩

theorem mapInc_nil (p : Pt) : mapInc [] p = [(p, 1)] := rfl

theorem mapInc_ne_nil (m : List (Pt × Nat)) (p : Pt) : mapInc m p ≠ [] := by
  match m with
  | [] =>
    rw [mapInc_nil]
    simp
  | (q, v) :: rest =>
    rw [mapInc]
    by_cases h1 : cmpCvPoint p q = true
    · rw [if_pos h1]
      simp
    · rw [if_neg h1]
      by_cases h2 : p = q
      · rw [if_pos h2]
        simp
      · rw [if_neg h2]
        simp

theorem listVotes_nil (p : Pt) : listVotes [] p = 0 := rfl

theorem listVotes_cons (f : Pt × Nat) (m : List (Pt × Nat)) (p : Pt) :
    listVotes (f :: m) p = (if f.1 = p then f.2 else 0) + listVotes m p := by
  by_cases h : f.1 = p <;> simp [listVotes, List.filter_cons, h]

theorem listVotes_mapInc (m : List (Pt × Nat)) (p p' : Pt) :
    listVotes (mapInc m p) p' = listVotes m p' + (if p = p' then 1 else 0) := by
  induction m with
  | nil =>
    rw [mapInc_nil, listVotes_cons, listVotes_nil]
    dsimp only
    omega
  | cons e rest ih =>
    obtain ⟨q, v⟩ := e
    rw [mapInc]
    by_cases h1 : cmpCvPoint p q = true
    · rw [if_pos h1, listVotes_cons, listVotes_cons]
      dsimp only
      omega
    · rw [if_neg h1]
      by_cases h2 : p = q
      · subst h2
        rw [if_pos rfl, listVotes_cons, listVotes_cons]
        dsimp only
        by_cases h : p = p'
        · simp only [if_pos h]
          omega
        · simp only [if_neg h]
          omega
      · rw [if_neg h2, listVotes_cons, listVotes_cons, ih]
        dsimp only
        omega

theorem sumVotes_mapInc (m : List (Pt × Nat)) (p : Pt) :
    ((mapInc m p).map (fun e => e.2)).sum = (m.map (fun e => e.2)).sum + 1 := by
  induction m with
  | nil =>
    rw [mapInc_nil]
    simp
  | cons e rest ih =>
    obtain ⟨q, v⟩ := e
    rw [mapInc]
    by_cases h1 : cmpCvPoint p q = true
    · rw [if_pos h1]
      simp only [List.map_cons, List.sum_cons]
      omega
    · rw [if_neg h1]
      by_cases h2 : p = q
      · rw [if_pos h2]
        simp only [List.map_cons, List.sum_cons]
        omega
      · rw [if_neg h2]
        simp only [List.map_cons, List.sum_cons, ih]
        omega

theorem weights_mapInc (m : List (Pt × Nat)) (p : Pt) (h : ∀ e ∈ m, 1 ≤ e.2) :
    ∀ e ∈ mapInc m p, 1 ≤ e.2 := by
  induction m with
  | nil =>
    intro e he
    rw [mapInc_nil] at he
    rcases List.mem_cons.mp he with rfl | he'
    · exact le_refl 1
    · simp at he'
  | cons f rest ih =>
    obtain ⟨q, v⟩ := f
    intro e he
    rw [mapInc] at he
    by_cases h1 : cmpCvPoint p q = true
    · rw [if_pos h1] at he
      rcases List.mem_cons.mp he with rfl | he'
      · exact le_refl 1
      · exact h e he'
    · rw [if_neg h1] at he
      by_cases h2 : p = q
      · rw [if_pos h2] at he
        rcases List.mem_cons.mp he with rfl | he'
        · show 1 ≤ v + 1
          omega
        · exact h e (List.mem_cons_of_mem _ he')
      · rw [if_neg h2] at he
        rcases List.mem_cons.mp he with rfl | he'
        · exact h (q, v) (List.mem_cons_self _ _)
        · exact ih (fun e' he' => h e' (List.mem_cons_of_mem _ he')) e he'

theorem mapInc_keys (m : List (Pt × Nat)) (p : Pt) :
    ∀ e ∈ mapInc m p, e.1 = p ∨ ∃ f ∈ m, e.1 = f.1 := by
  induction m with
  | nil =>
    intro e he
    rw [mapInc_nil] at he
    rcases List.mem_cons.mp he with rfl | he'
    · exact Or.inl rfl
    · simp at he'
  | cons f rest ih =>
    obtain ⟨q, v⟩ := f
    intro e he
    rw [mapInc] at he
    by_cases h1 : cmpCvPoint p q = true
    · rw [if_pos h1] at he
      rcases List.mem_cons.mp he with rfl | he'
      · exact Or.inl rfl
      · exact Or.inr ⟨e, he', rfl⟩
    · rw [if_neg h1] at he
      by_cases h2 : p = q
      · rw [if_pos h2] at he
        rcases List.mem_cons.mp he with rfl | he'
        · exact Or.inr ⟨(q, v), List.mem_cons_self _ _, rfl⟩
        · exact Or.inr ⟨e, List.mem_cons_of_mem _ he', rfl⟩
      · rw [if_neg h2] at he
        rcases List.mem_cons.mp he with rfl | he'
        · exact Or.inr ⟨(q, v), List.mem_cons_self _ _, rfl⟩
        · rcases ih e he' with h | ⟨f, hf, hef⟩
          · exact Or.inl h
          · exact Or.inr ⟨f, List.mem_cons_of_mem _ hf, hef⟩

theorem innerSorted_mapInc (m : List (Pt × Nat)) (p : Pt) (h : innerSorted m) :
    innerSorted (mapInc m p) := by
  induction m with
  | nil =>
    rw [mapInc_nil, innerSorted]
    simp
  | cons f rest ih =>
    obtain ⟨q, v⟩ := f
    rw [innerSorted, List.pairwise_cons] at h
    obtain ⟨hq, hrest⟩ := h
    rw [innerSorted, mapInc]
    by_cases h1 : cmpCvPoint p q = true
    · rw [if_pos h1]
      refine List.Pairwise.cons ?_ (List.Pairwise.cons hq hrest)
      intro f hf
      rcases List.mem_cons.mp hf with rfl | hf'
      · exact h1
      · exact cmpCvPoint_trans h1 (hq f hf')
    · rw [if_neg h1]
      by_cases h2 : p = q
      · rw [if_pos h2]
        exact List.Pairwise.cons hq hrest
      · rw [if_neg h2]
        refine List.Pairwise.cons ?_ (ih hrest)
        intro f hf
        rcases mapInc_keys rest p f hf with hk | ⟨g, hg, hk⟩
        · rw [hk]
          exact cmpCvPoint_total (by simpa using h1) h2
        · rw [hk]
          exact hq g hg

theorem tblInc_nil (c : Nat) (p : Pt) : tblInc [] c p = [(c, mapInc [] p)] := rfl

theorem lutGet_nil (c : Nat) : lutGet [] c = [] := rfl

theorem lutGet_cons (r : Nat × List (Pt × Nat)) (t : Lut) (c : Nat) :
    lutGet (r :: t) c = if r.1 = c then r.2 else lutGet t c := by
  by_cases h : r.1 = c
  · rw [lutGet, List.find?_cons_of_pos _ (by simp [h]), if_pos h]
  · rw [lutGet, List.find?_cons_of_neg _ (by simp [h]), if_neg h]
    rfl

theorem lutGet_eq_nil (t : Lut) (c : Nat) (h : ∀ s ∈ t, ¬ s.1 = c) :
    lutGet t c = [] := by
  rw [lutGet, List.find?_eq_none.mpr (by
    intro r hr
    simpa using h r hr)]

theorem lutTotalVotes_nil : lutTotalVotes [] = 0 := rfl

theorem lutTotalVotes_cons (r : Nat × List (Pt × Nat)) (t : Lut) :
    lutTotalVotes (r :: t) = (r.2.map (fun e => e.2)).sum + lutTotalVotes t := by
  simp [lutTotalVotes]

theorem lutTotalVotes_tblInc (t : Lut) (c : Nat) (p : Pt) :
    lutTotalVotes (tblInc t c p) = lutTotalVotes t + 1 := by
  induction t with
  | nil =>
    rw [tblInc_nil, lutTotalVotes_cons, lutTotalVotes_nil]
    dsimp only
    rw [mapInc_nil]
    simp
  | cons r rest ih =>
    obtain ⟨c0, m⟩ := r
    rw [tblInc]
    by_cases h1 : c < c0
    · rw [if_pos h1, lutTotalVotes_cons, lutTotalVotes_cons]
      dsimp only
      rw [mapInc_nil]
      simp
      omega
    · rw [if_neg h1]
      by_cases h2 : c = c0
      · rw [if_pos h2, lutTotalVotes_cons, lutTotalVotes_cons]
        dsimp only
        rw [sumVotes_mapInc]
        omega
      · rw [if_neg h2, lutTotalVotes_cons, lutTotalVotes_cons, ih]
        omega

theorem tblInc_slots (t : Lut) (c : Nat) (p : Pt) :
    ∀ r ∈ tblInc t c p,
      r ∈ t ∨ ∃ m, (m = [] ∨ (c, m) ∈ t) ∧ r = (c, mapInc m p) := by
  induction t with
  | nil =>
    intro r hr
    rw [tblInc_nil] at hr
    rcases List.mem_cons.mp hr with rfl | hr'
    · exact Or.inr ⟨[], Or.inl rfl, rfl⟩
    · simp at hr'
  | cons s rest ih =>
    obtain ⟨c0, m0⟩ := s
    intro r hr
    rw [tblInc] at hr
    by_cases h1 : c < c0
    · rw [if_pos h1] at hr
      rcases List.mem_cons.mp hr with rfl | hr'
      · exact Or.inr ⟨[], Or.inl rfl, rfl⟩
      · exact Or.inl hr'
    · rw [if_neg h1] at hr
      by_cases h2 : c = c0
      · rw [if_pos h2] at hr
        rcases List.mem_cons.mp hr with rfl | hr'
        · exact Or.inr ⟨m0, Or.inr (by rw [h2]; exact List.mem_cons_self _ _), by rw [h2]⟩
        · exact Or.inl (List.mem_cons_of_mem _ hr')
      · rw [if_neg h2] at hr
        rcases List.mem_cons.mp hr with rfl | hr'
        · exact Or.inl (List.mem_cons_self _ _)
        · rcases ih r hr' with h | ⟨m, hm, hr2⟩
          · exact Or.inl (List.mem_cons_of_mem _ h)
          · rcases hm with rfl | hm'
            · exact Or.inr ⟨[], Or.inl rfl, hr2⟩
            · exact Or.inr ⟨m, Or.inr (List.mem_cons_of_mem _ hm'), hr2⟩

theorem tblInc_keys (t : Lut) (c : Nat) (p : Pt) :
    ∀ r ∈ tblInc t c p, r.1 = c ∨ ∃ s ∈ t, r.1 = s.1 := by
  intro r hr
  rcases tblInc_slots t c p r hr with h | ⟨m, _, rfl⟩
  · exact Or.inr ⟨r, h, rfl⟩
  · exact Or.inl rfl

theorem tblInc_sorted (t : Lut) (c : Nat) (p : Pt)
    (h : List.Pairwise (fun r s => r.1 < s.1) t) :
    List.Pairwise (fun r s => r.1 < s.1) (tblInc t c p) := by
  induction t with
  | nil =>
    rw [tblInc_nil]
    simp
  | cons s rest ih =>
    obtain ⟨c0, m0⟩ := s
    rw [List.pairwise_cons] at h
    obtain ⟨hh, hrest⟩ := h
    rw [tblInc]
    by_cases h1 : c < c0
    · rw [if_pos h1]
      refine List.Pairwise.cons ?_ (List.Pairwise.cons hh hrest)
      intro r hr
      rcases List.mem_cons.mp hr with rfl | hr'
      · exact h1
      · have := hh r hr'
        dsimp only
        omega
    · rw [if_neg h1]
      by_cases h2 : c = c0
      · rw [if_pos h2]
        exact List.Pairwise.cons hh hrest
      · rw [if_neg h2]
        refine List.Pairwise.cons ?_ (ih hrest)
        intro r hr
        rcases tblInc_keys rest c p r hr with hk | ⟨s, hs, hk⟩
        · rw [hk]
          dsimp only
          omega
        · rw [hk]
          exact hh s hs

theorem tblInc_wf (t : Lut) (c : Nat) (p : Pt) (h : lutWF t) : lutWF (tblInc t c p) := by
  refine ⟨tblInc_sorted t c p h.1, ?_⟩
  intro r hr
  rcases tblInc_slots t c p r hr with hm | ⟨m, hm, rfl⟩
  · exact h.2 r hm
  · have hprops : m = [] ∨ (innerSorted m ∧ ∀ e ∈ m, 1 ≤ e.2) := by
      rcases hm with rfl | hmem
      · exact Or.inl rfl
      · exact Or.inr ⟨(h.2 (c, m) hmem).2.1, (h.2 (c, m) hmem).2.2⟩
    rcases hprops with rfl | ⟨hsort, hwts⟩
    · exact ⟨mapInc_ne_nil [] p, innerSorted_mapInc [] p (by rw [innerSorted]; simp),
        weights_mapInc [] p (by simp)⟩
    · exact ⟨mapInc_ne_nil m p, innerSorted_mapInc m p hsort, weights_mapInc m p hwts⟩

theorem lutGet_tblInc (t : Lut) (c : Nat) (p : Pt)
    (hs : List.Pairwise (fun r s => r.1 < s.1) t) (c' : Nat) :
    lutGet (tblInc t c p) c' =
      if c' = c then mapInc (lutGet t c') p else lutGet t c' := by
  induction t with
  | nil =>
    rw [tblInc_nil, lutGet_cons]
    dsimp only
    by_cases h : c' = c
    · rw [if_pos h.symm, if_pos h, lutGet_nil]
    · rw [if_neg (fun hc => h hc.symm), if_neg h]
  | cons s rest ih =>
    obtain ⟨c0, m0⟩ := s
    rw [List.pairwise_cons] at hs
    obtain ⟨hh, hrest⟩ := hs
    have hh' : ∀ s ∈ rest, c0 < s.1 := by
      intro s hs
      have := hh s hs
      dsimp only at this
      exact this
    rw [tblInc]
    by_cases h1 : c < c0
    · rw [if_pos h1]
      by_cases h : c' = c
      · have hnil : lutGet rest c' = [] := lutGet_eq_nil rest c' (by
          intro s hs
          have := hh' s hs
          omega)
        rw [lutGet_cons, lutGet_cons]
        dsimp only
        rw [if_pos (show c = c' by omega), if_pos h,
          if_neg (show ¬ c0 = c' by omega), hnil]
      · rw [lutGet_cons, lutGet_cons]
        dsimp only
        rw [if_neg (fun hc => h hc.symm), if_neg h]
    · rw [if_neg h1]
      by_cases h2 : c = c0
      · rw [if_pos h2, lutGet_cons, lutGet_cons]
        dsimp only
        by_cases h : c' = c
        · rw [if_pos (show c0 = c' by omega), if_pos h, if_pos (show c0 = c' by omega)]
        · have h3 : ¬ c0 = c' := by omega
          rw [if_neg h3, if_neg h, if_neg h3]
      · rw [if_neg h2, lutGet_cons, lutGet_cons]
        dsimp only
        by_cases h0 : c0 = c'
        · rw [if_pos h0, if_neg (show ¬ c' = c by omega), if_pos h0]
        · rw [if_neg h0, if_neg h0, ih hrest]

theorem listVotes_pos_of_mem (m : List (Pt × Nat)) (e : Pt × Nat) (he : e ∈ m)
    (hw : 1 ≤ e.2) : 0 < listVotes m e.1 := by
  induction m with
  | nil => simp at he
  | cons f rest ih =>
    rw [listVotes_cons]
    rcases List.mem_cons.mp he with rfl | he'
    · rw [if_pos rfl]
      omega
    · have := ih he'
      omega

theorem lutGet_cases (t : Lut) (c : Nat) :
    lutGet t c = [] ∨ ∃ r ∈ t, r.1 = c ∧ lutGet t c = r.2 := by
  rw [lutGet]
  cases hf : t.find? (fun r => r.1 == c) with
  | none => exact Or.inl rfl
  | some r =>
    refine Or.inr ⟨r, List.mem_of_find?_eq_some hf, ?_, rfl⟩
    have := List.find?_some hf
    simpa using this

theorem tblStep_wf (E : Img) (f : T_256_flags) (fac : ℚ) (ro co : Nat)
    (t : Lut) (q : Nat × Nat) (h : lutWF t) : lutWF (tblStep E f fac ro co t q) := by
  rw [tblStep]
  by_cases hf : f.get (E.px q.1 q.2) = true
  · rw [if_pos hf]
    exact tblInc_wf _ _ _ h
  · rw [if_neg hf]
    exact h

theorem lutWF_foldl_tblStep (E : Img) (f : T_256_flags) (fac : ℚ) (ro co : Nat)
    (l : List (Nat × Nat)) (t : Lut) (h : lutWF t) :
    lutWF (l.foldl (tblStep E f fac ro co) t) := by
  induction l generalizing t with
  | nil => exact h
  | cons q qs ih =>
    rw [List.foldl_cons]
    exact ih _ (tblStep_wf E f fac ro co t q h)

theorem lutTotalVotes_foldl_tblStep (E : Img) (f : T_256_flags) (fac : ℚ)
    (ro co : Nat) (l : List (Nat × Nat)) (t : Lut) :
    lutTotalVotes (l.foldl (tblStep E f fac ro co) t)
      = lutTotalVotes t + l.countP (fun q => f.get (E.px q.1 q.2)) := by
  induction l generalizing t with
  | nil => simp
  | cons q qs ih =>
    rw [List.foldl_cons, List.countP_cons, ih]
    have hstep : lutTotalVotes (tblStep E f fac ro co t q)
        = lutTotalVotes t + (if f.get (E.px q.1 q.2) = true then 1 else 0) := by
      rw [tblStep]
      by_cases hf : f.get (E.px q.1 q.2) = true
      · rw [if_pos hf, if_pos hf, lutTotalVotes_tblInc]
      · rw [if_neg hf, if_neg hf]
        omega
    rw [hstep]
    by_cases hf : f.get (E.px q.1 q.2) = true
    · rw [if_pos hf]
      omega
    · rw [if_neg hf]
      omega

/-- The vote-weight change of one loop iteration of `create_ghough_table`:
slot `c` at offset `p` gains one vote exactly when this pixel has code `c`,
the code is a member, and the pixel's scaled centering offset is `p`. -/
theorem listVotes_tblStep (E : Img) (f : T_256_flags) (fac : ℚ) (ro co : Nat)
    (t : Lut) (q : Nat × Nat) (h : lutWF t) (c : Nat) (p : Pt) :
    listVotes (lutGet (tblStep E f fac ro co t q) c) p
      = listVotes (lutGet t c) p
        + (if (E.px q.1 q.2 == c && f.get c && (scaledPt fac ro co q.1 q.2 == p))
            then 1 else 0) := by
  rw [tblStep]
  by_cases hf : f.get (E.px q.1 q.2) = true
  · rw [if_pos hf, lutGet_tblInc _ _ _ h.1]
    by_cases hc : c = E.px q.1 q.2
    · rw [if_pos hc, listVotes_mapInc]
      have h1 : (E.px q.1 q.2 == c) = true := by simp [hc]
      have h2 : f.get c = true := by rw [hc]; exact hf
      by_cases hp : scaledPt fac ro co q.1 q.2 = p
      · simp [h1, h2, hp]
      · simp [h1, h2, hp]
    · rw [if_neg hc]
      have h1 : (E.px q.1 q.2 == c) = false := by
        simp
        intro hcc
        exact hc hcc.symm
      simp [h1]
  · rw [if_neg hf]
    by_cases hc : c = E.px q.1 q.2
    · have h2 : f.get c = false := by
        rw [hc]
        simpa using hf
      simp [h2]
    · have h1 : (E.px q.1 q.2 == c) = false := by
        simp
        intro hcc
        exact hc hcc.symm
      simp [h1]

theorem listVotes_foldl_tblStep (E : Img) (f : T_256_flags) (fac : ℚ)
    (ro co : Nat) (l : List (Nat × Nat)) (t : Lut) (h : lutWF t) (c : Nat) (p : Pt) :
    listVotes (lutGet (l.foldl (tblStep E f fac ro co) t) c) p
      = listVotes (lutGet t c) p
        + l.countP (fun q =>
            E.px q.1 q.2 == c && f.get c && (scaledPt fac ro co q.1 q.2 == p)) := by
  induction l generalizing t with
  | nil => simp
  | cons q qs ih =>
    rw [List.foldl_cons, List.countP_cons,
      ih (tblStep E f fac ro co t q) (tblStep_wf E f fac ro co t q h),
      listVotes_tblStep E f fac ro co t q h c p]
    omega

/-! ### Scale clamping -/

theorem oneTenth_eq : oneTenth = 1/10 := by
  rw [oneTenth, Rat.mk'_eq_divInt]
  norm_num [Rat.divInt_eq_div]

theorem qTen_eq : qTen = 10 := by
  rw [qTen, Rat.mk'_eq_divInt]
  norm_num [Rat.divInt_eq_div]

theorem clampScale_of_lt {s : ℚ} (h : s < 1/10) : clampScale s = 1/10 := by
  have h' : s < oneTenth := by
    rw [oneTenth_eq]
    exact h
  simp only [clampScale, if_pos h']
  rw [if_neg (show ¬ oneTenth > qTen by rw [oneTenth_eq, qTen_eq]; norm_num),
    oneTenth_eq]

theorem clampScale_of_gt {s : ℚ} (h : 10 < s) : clampScale s = 10 := by
  have h1 : ¬ s < oneTenth := by
    rw [oneTenth_eq]
    intro hc
    linarith
  have h2 : s > qTen := by
    rw [qTen_eq]
    exact h
  simp only [clampScale, if_neg h1]
  rw [if_pos h2, qTen_eq]

theorem clampScale_oneTenth : clampScale (1/10) = 1/10 := by
  have h1 : ¬ (1/10 : ℚ) < oneTenth := by
    rw [oneTenth_eq]
    exact lt_irrefl _
  have h2 : ¬ (1/10 : ℚ) > qTen := by
    rw [qTen_eq]
    norm_num
  simp only [clampScale, if_neg h1, if_neg h2]

theorem clampScale_ten : clampScale 10 = 10 := by
  have h1 : ¬ (10 : ℚ) < oneTenth := by
    rw [oneTenth_eq]
    norm_num
  have h2 : ¬ (10 : ℚ) > qTen := by
    rw [qTen_eq]
    exact lt_irrefl _
  simp only [clampScale, if_neg h1, if_neg h2]

theorem create_ghough_table_congr_scale (rbgrad : Img) (rflags : T_256_flags)
    {s s' : ℚ} (h : clampScale s = clampScale s') :
    create_ghough_table rbgrad rflags s = create_ghough_table rbgrad rflags s' := by
  simp only [create_ghough_table, h]

/-! ### Characterization of the built table -/

/-- The vote weight the built table holds for code `c` at offset `p` equals the
number of pixels of the encoded image that have code `c` (a member code) and
whose scaled centering offset is exactly `p` — merged entries carry the summed
weight. -/
theorem create_ghough_table_votesFor (rbgrad : Img) (rflags : T_256_flags)
    (scale : ℚ) (c : Nat) (p : Pt) :
    (create_ghough_table rbgrad rflags scale).votesFor c p
      = (pixList rbgrad.rows rbgrad.cols).countP
          (fun q => rbgrad.px q.1 q.2 == c && rflags.get c
            && (scaledPt (clampScale scale) (rbgrad.rows / 2) (rbgrad.cols / 2)
                  q.1 q.2 == p)) := by
  show listVotes (lutGet ((pixList rbgrad.rows rbgrad.cols).foldl
      (tblStep rbgrad rflags (clampScale scale) (rbgrad.rows / 2) (rbgrad.cols / 2)) []) c) p
    = _
  rw [listVotes_foldl_tblStep _ _ _ _ _ _ [] lutWF_nil, lutGet_nil, listVotes_nil]
  omega

/-- The built table's lookup structure is well-formed. -/
theorem create_ghough_table_wf (rbgrad : Img) (rflags : T_256_flags) (scale : ℚ) :
    lutWF (create_ghough_table rbgrad rflags scale).lut :=
  lutWF_foldl_tblStep rbgrad rflags (clampScale scale)
    (rbgrad.rows / 2) (rbgrad.cols / 2) (pixList rbgrad.rows rbgrad.cols) [] lutWF_nil

/-- A slot of the built table is nonempty iff its code is a member of the
Membership Set and occurs at least once in the encoded image. -/
theorem create_ghough_table_elem_ne_nil (rbgrad : Img) (rflags : T_256_flags)
    (scale : ℚ) (c : Nat) :
    (create_ghough_table rbgrad rflags scale).elem c ≠ []
      ↔ rflags.get c = true
          ∧ ∃ q ∈ pixList rbgrad.rows rbgrad.cols, rbgrad.px q.1 q.2 = c := by
  have hwf := create_ghough_table_wf rbgrad rflags scale
  constructor
  · intro hne
    rcases lutGet_cases (create_ghough_table rbgrad rflags scale).lut c with h0 | hr
    · exact absurd h0 hne
    · obtain ⟨r, hr, hrc, hrv⟩ := hr
      obtain ⟨hne2, _, hwts⟩ := hwf.2 r hr
      obtain ⟨e, he⟩ := List.exists_mem_of_ne_nil r.2 hne2
      have hv : 0 < (create_ghough_table rbgrad rflags scale).votesFor c e.1 := by
        rw [GhoughTable.votesFor, GhoughTable.elem, hrv]
        exact listVotes_pos_of_mem r.2 e he (hwts e he)
      rw [create_ghough_table_votesFor] at hv
      obtain ⟨q, hq, hpred⟩ := List.countP_pos_iff.mp hv
      have hpred' := hpred
      simp only [Bool.and_eq_true, beq_iff_eq] at hpred'
      exact ⟨hpred'.1.2, q, hq, hpred'.1.1⟩
  · rintro ⟨hfl, q, hq, hcode⟩
    have hv : 0 < (create_ghough_table rbgrad rflags scale).votesFor c
        (scaledPt (clampScale scale) (rbgrad.rows / 2) (rbgrad.cols / 2) q.1 q.2) := by
      rw [create_ghough_table_votesFor]
      refine List.countP_pos_iff.mpr ⟨q, hq, ?_⟩
      simp [hcode, hfl]
    intro hnil
    rw [GhoughTable.votesFor, hnil, listVotes_nil] at hv
    exact absurd hv (lt_irrefl 0)

/-- Slot entries of the built table have pairwise-distinct offsets. -/
theorem create_ghough_table_elem_pairwise (rbgrad : Img) (rflags : T_256_flags)
    (scale : ℚ) (c : Nat) :
    List.Pairwise (fun e f => e.1 ≠ f.1)
      ((create_ghough_table rbgrad rflags scale).elem c) := by
  have hwf := create_ghough_table_wf rbgrad rflags scale
  rcases lutGet_cases (create_ghough_table rbgrad rflags scale).lut c with h0 | hr
  · rw [GhoughTable.elem, h0]
    exact List.Pairwise.nil
  · obtain ⟨r, hr, hrc, hrv⟩ := hr
    rw [GhoughTable.elem, hrv]
    exact ((hwf.2 r hr).2.1).imp (fun h => cmpCvPoint_ne h)

/-! ### Claim theorems -/

/-- C2: for every input image and every range threshold, the byte image
produced by `cmp8NeighborsGTRng` is exactly 0 at every pixel of the outermost
one-pixel border ring (row 0, row rows−1, column 0, column cols−1); for
degenerate images with no interior (rows < 3 or cols < 3) the entire output
is zero. -/
theorem cmp8NeighborsGTRng_border_zero (img : Img) (rng : Nat) :
    (∀ i j, (i = 0 ∨ i = img.rows - 1 ∨ j = 0 ∨ j = img.cols - 1) →
      (cmp8NeighborsGTRng img rng).px i j = 0)
    ∧ ((img.rows < 3 ∨ img.cols < 3) →
        ∀ i j, (cmp8NeighborsGTRng img rng).px i j = 0) := by
  constructor
  · intro i j hb
    simp only [cmp8NeighborsGTRng]
    rw [if_neg (by omega)]
  · intro hsmall i j
    simp only [cmp8NeighborsGTRng]
    rw [if_neg (by omega)]

theorem cmp8NeighborsGTRng_border_zero_witness :
    (cmp8NeighborsGTRng img9w 0).px 0 3 = 0
    ∧ (cmp8NeighborsGTRng img1x1 5).px 0 0 = 0 :=
  ⟨(cmp8NeighborsGTRng_border_zero img9w 0).1 0 3 (Or.inl rfl),
   (cmp8NeighborsGTRng_border_zero img1x1 5).2 (Or.inl (by decide)) 0 0⟩

/-- C3: for every encoded image, Membership Set and scale factor, the built
table's `total_votes` equals the number of pixels of the encoded image whose
code is a member of the set (scale-merging preserves the vote count). -/
theorem create_ghough_table_total_votes (rbgrad : Img) (rflags : T_256_flags)
    (scale : ℚ) :
    (create_ghough_table rbgrad rflags scale).total_votes
      = (pixList rbgrad.rows rbgrad.cols).countP
          (fun q => rflags.get (rbgrad.px q.1 q.2)) := by
  show lutTotalVotes ((pixList rbgrad.rows rbgrad.cols).foldl
      (tblStep rbgrad rflags (clampScale scale) (rbgrad.rows / 2) (rbgrad.cols / 2)) [])
    = _
  rw [lutTotalVotes_foldl_tblStep, lutTotalVotes_nil]
  omega

/-- C7: requesting scale 0.01 builds the identical table to requesting scale
0.1 and requesting 100.0 the identical table to requesting 10.0; in general
any scale below 0.1 or above 10.0 is silently clamped into [0.1, 10.0]. -/
theorem create_ghough_table_scale_clamp (rbgrad : Img) (rflags : T_256_flags) :
    create_ghough_table rbgrad rflags (1/100) = create_ghough_table rbgrad rflags (1/10)
    ∧ create_ghough_table rbgrad rflags 100 = create_ghough_table rbgrad rflags 10
    ∧ (∀ s : ℚ, s < 1/10 →
        create_ghough_table rbgrad rflags s = create_ghough_table rbgrad rflags (1/10))
    ∧ (∀ s : ℚ, 10 < s →
        create_ghough_table rbgrad rflags s = create_ghough_table rbgrad rflags 10) := by
  have hlow : ∀ s : ℚ, s < 1/10 →
      create_ghough_table rbgrad rflags s = create_ghough_table rbgrad rflags (1/10) := by
    intro s hs
    exact create_ghough_table_congr_scale rbgrad rflags
      (by rw [clampScale_of_lt hs, clampScale_oneTenth])
  have hhigh : ∀ s : ℚ, 10 < s →
      create_ghough_table rbgrad rflags s = create_ghough_table rbgrad rflags 10 := by
    intro s hs
    exact create_ghough_table_congr_scale rbgrad rflags
      (by rw [clampScale_of_gt hs, clampScale_ten])
  exact ⟨hlow (1/100) (by norm_num), hhigh 100 (by norm_num), hlow, hhigh⟩

theorem create_ghough_table_scale_clamp_witness :
    ((1:ℚ)/200 < 1/10)
    ∧ create_ghough_table imgT3 flagsCode1 (1/200)
        = create_ghough_table imgT3 flagsCode1 (1/10) :=
  ⟨by norm_num,
   (create_ghough_table_scale_clamp imgT3 flagsCode1).2.2.1 (1/200) (by norm_num)⟩

/-- C8: `create_ghough_table` uses the integer-division center
`(rows/2, cols/2)`; each member pixel contributes one vote at its offset
`(center_col − col, center_row − row)` scaled by the clamped factor and
truncated, merging repeated offsets by weight; and a slot is nonempty iff its
code is a member and occurs in the encoded image. -/
theorem create_ghough_table_characterization (rbgrad : Img) (rflags : T_256_flags)
    (scale : ℚ) (c : Nat) (p : Pt) :
    ((create_ghough_table rbgrad rflags scale).votesFor c p
        = (pixList rbgrad.rows rbgrad.cols).countP
            (fun q => rbgrad.px q.1 q.2 == c && rflags.get c
              && (scaledPt (clampScale scale) (rbgrad.rows / 2) (rbgrad.cols / 2)
                    q.1 q.2 == p)))
    ∧ ((create_ghough_table rbgrad rflags scale).elem c ≠ []
        ↔ rflags.get c = true
            ∧ ∃ q ∈ pixList rbgrad.rows rbgrad.cols, rbgrad.px q.1 q.2 = c)
    ∧ List.Pairwise (fun e f => e.1 ≠ f.1)
        ((create_ghough_table rbgrad rflags scale).elem c) :=
  ⟨create_ghough_table_votesFor rbgrad rflags scale c p,
   create_ghough_table_elem_ne_nil rbgrad rflags scale c,
   create_ghough_table_elem_pairwise rbgrad rflags scale c⟩

theorem create_ghough_table_characterization_witness :
    ((create_ghough_table imgT3 flagsCode1 1).votesFor 1 ((1 : ℤ), (1 : ℤ))
        = (pixList imgT3.rows imgT3.cols).countP
            (fun q => imgT3.px q.1 q.2 == 1 && flagsCode1.get 1
              && (scaledPt (clampScale 1) (imgT3.rows / 2) (imgT3.cols / 2)
                    q.1 q.2 == ((1 : ℤ), (1 : ℤ)))))
    ∧ ((create_ghough_table imgT3 flagsCode1 1).elem 1 ≠ []
        ↔ flagsCode1.get 1 = true
            ∧ ∃ q ∈ pixList imgT3.rows imgT3.cols, imgT3.px q.1 q.2 = 1)
    ∧ List.Pairwise (fun e f => e.1 ≠ f.1)
        ((create_ghough_table imgT3 flagsCode1 1).elem 1) :=
  create_ghough_table_characterization imgT3 flagsCode1 1 1 ((1 : ℤ), (1 : ℤ))

/-- C9 (counterexample): in the stated 9×9 scenario — all-white image with a
single black center pixel, greater-than encoding with range threshold 0,
"4 adjacent bits" membership, scale 1.0 — the built table does NOT have
total_votes 1, total_entries 1 and a code-255 entry of weight 1. -/
theorem ghough_table_9x9_center_dot_claim_false :
    ¬ ((create_ghough_table (cmp8NeighborsGTRng img9w 0) flags4adj 1).total_votes = 1
        ∧ (create_ghough_table (cmp8NeighborsGTRng img9w 0) flags4adj 1).total_entries = 1
        ∧ (create_ghough_table (cmp8NeighborsGTRng img9w 0) flags4adj 1).votesFor
            255 ((0 : ℤ), (0 : ℤ)) = 1) := by
  decide

/-- C9 (amended): the stated 9×9 scenario yields the empty table.  The black
center encodes to 0 and its 8 white neighbors to the single-bit codes, none
of which has 4 adjacent bits, so no pixel is a member: every slot is empty
and `total_votes = total_entries = 0` (`sz` is still recorded as 9×9). -/
theorem ghough_table_9x9_center_dot :
    (create_ghough_table (cmp8NeighborsGTRng img9w 0) flags4adj 1).lut = []
    ∧ (create_ghough_table (cmp8NeighborsGTRng img9w 0) flags4adj 1).total_votes = 0
    ∧ (create_ghough_table (cmp8NeighborsGTRng img9w 0) flags4adj 1).total_entries = 0
    ∧ (create_ghough_table (cmp8NeighborsGTRng img9w 0) flags4adj 1).sz = (9, 9) := by
  decide

/-- C10: every member of the adjacent-bits set has popcount `i + 1` for some
set bit `i` of the mask; value 0 is never a member; consequently slot 0 of any
table built with such a set is empty, so zero-coded pixels never vote. -/
theorem create_adjacent_bits_set_popcount (mask : Nat) :
    (∀ v, (create_adjacent_bits_set mask).get v = true →
        ∃ i, i < 8 ∧ mask.testBit i = true ∧ popcount8 v = i + 1)
    ∧ (create_adjacent_bits_set mask).get 0 = false
    ∧ (∀ (E : Img) (s : ℚ),
        (create_ghough_table E (create_adjacent_bits_set mask) s).elem 0 = []) := by
  have hpop : ∀ v, (create_adjacent_bits_set mask).get v = true →
      ∃ i, i < 8 ∧ mask.testBit i = true ∧ popcount8 v = i + 1 := by
    intro v hv
    rw [get_create_adjacent_bits_set] at hv
    obtain ⟨i, hi, hpred⟩ := List.any_eq_true.mp hv
    rw [Bool.and_eq_true] at hpred
    obtain ⟨j, hj, hvj⟩ := List.any_eq_true.mp hpred.2
    have hrot : ∀ i < 8, ∀ j < 8, popcount8 (adjRot (i + 1) j) = i + 1 := by decide
    refine ⟨i, List.mem_range.mp hi, hpred.1, ?_⟩
    rw [beq_iff_eq] at hvj
    rw [hvj]
    exact hrot i (List.mem_range.mp hi) j (List.mem_range.mp hj)
  have hzero : (create_adjacent_bits_set mask).get 0 = false := by
    by_contra h
    rw [Bool.not_eq_false] at h
    obtain ⟨i, _, _, hp⟩ := hpop 0 h
    rw [show popcount8 0 = 0 from by decide] at hp
    omega
  refine ⟨hpop, hzero, ?_⟩
  intro E s
  by_contra h
  have := (create_ghough_table_elem_ne_nil E (create_adjacent_bits_set mask) s 0).mp h
  rw [hzero] at this
  exact absurd this.1 (by simp)

theorem create_adjacent_bits_set_popcount_witness :
    (create_adjacent_bits_set 8).get 15 = true
    ∧ (∃ i, i < 8 ∧ (8 : Nat).testBit i = true ∧ popcount8 15 = i + 1) :=
  ⟨by decide, (create_adjacent_bits_set_popcount 8).1 15 (by decide)⟩

/-! ### The voting sweeps -/

theorem length_flatMap_const {α β : Type _} (l : List α) (f : α → List β) (n : Nat)
    (h : ∀ a ∈ l, (f a).length = n) : (l.flatMap f).length = l.length * n := by
  induction l with
  | nil => simp
  | cons x xs ih =>
    rw [List.flatMap_cons, List.length_append, h x (List.mem_cons_self x xs),
      ih (fun a ha => h a (List.mem_cons_of_mem x ha)), List.length_cons]
    ring

theorem mem_pixList (rows cols : Nat) (q : Nat × Nat) :
    q ∈ pixList rows cols ↔ q.1 < rows ∧ q.2 < cols := by
  rw [pixList, List.mem_flatMap]
  constructor
  · rintro ⟨i, hi, hq⟩
    rw [List.mem_map] at hq
    obtain ⟨j, hj, rfl⟩ := hq
    exact ⟨List.mem_range.mp hi, List.mem_range.mp hj⟩
  · rintro ⟨h1, h2⟩
    refine ⟨q.1, List.mem_range.mpr h1, List.mem_map.mpr ⟨q.2, List.mem_range.mpr h2, ?_⟩⟩
    rfl

theorem mem_sweepPix (hh hw rows cols : Nat) (q : Nat × Nat)
    (h : q ∈ sweepPix hh hw rows cols) :
    (hh ≤ q.1 ∧ q.1 < hh + (rows - hh - hh))
    ∧ (hw ≤ q.2 ∧ q.2 < hw + (cols - hw - hw)) := by
  rw [sweepPix, List.mem_flatMap] at h
  obtain ⟨i, hi, hq⟩ := h
  rw [List.mem_map] at hq
  obtain ⟨j, hj, rfl⟩ := hq
  exact ⟨List.mem_range'_1.mp hi, List.mem_range'_1.mp hj⟩

theorem evsSumAt_nil (my mx : ℤ) : evsSumAt [] my mx = 0 := rfl

theorem evsSumAt_cons (e : (ℤ × ℤ) × Nat) (es : List ((ℤ × ℤ) × Nat)) (my mx : ℤ) :
    evsSumAt (e :: es) my mx
      = (if e.1 = (my, mx) then e.2 else 0) + evsSumAt es my mx := by
  by_cases h : e.1 = (my, mx) <;> simp [evsSumAt, List.filter_cons, h]

theorem foldVotes_acc (evs : List ((ℤ × ℤ) × Nat)) (a : ℤ → ℤ → Nat) (my mx : ℤ) :
    foldVotes evs a my mx = a my mx + evsSumAt evs my mx := by
  induction evs generalizing a with
  | nil => simp [foldVotes, evsSumAt_nil]
  | cons e es ih =>
    rw [foldVotes, List.foldl_cons]
    rw [show (es.foldl (fun a e => addVoteAt a e.1 e.2) (addVoteAt a e.1 e.2))
        = foldVotes es (addVoteAt a e.1 e.2) from rfl]
    rw [ih, evsSumAt_cons, addVoteAt]
    by_cases h : (my, mx) = e.1
    · rw [if_pos h, if_pos h.symm]
      omega
    · rw [if_neg h, if_neg (fun hc => h hc.symm)]
      omega

theorem foldVotesChecked_acc (rows cols : Nat) (evs : List ((ℤ × ℤ) × Nat))
    (a : ℤ → ℤ → Nat) (my mx : ℤ) :
    foldVotesChecked rows cols evs a my mx
      = a my mx
        + evsSumAt (evs.filter (fun e =>
            0 ≤ e.1.2 ∧ e.1.2 < (cols : ℤ) ∧ 0 ≤ e.1.1 ∧ e.1.1 < (rows : ℤ))) my mx := by
  induction evs generalizing a with
  | nil => simp [foldVotesChecked, evsSumAt_nil]
  | cons e es ih =>
    rw [foldVotesChecked, List.foldl_cons, List.filter_cons]
    by_cases hg : 0 ≤ e.1.2 ∧ e.1.2 < (cols : ℤ) ∧ 0 ≤ e.1.1 ∧ e.1.1 < (rows : ℤ)
    · rw [if_pos hg, if_pos (by simpa using hg)]
      rw [show (es.foldl _ (addVoteAt a e.1 e.2)) = foldVotesChecked rows cols es (addVoteAt a e.1 e.2) from rfl,
        ih, evsSumAt_cons, addVoteAt]
      by_cases h : (my, mx) = e.1
      · rw [if_pos h, if_pos h.symm]
        omega
      · rw [if_neg h, if_neg (fun hc => h hc.symm)]
        omega
    · rw [if_neg hg, if_neg (by simpa using hg)]
      rw [show (es.foldl _ a) = foldVotesChecked rows cols es a from rfl, ih]

/-- C5 (amended): the bounded sweep visits exactly
`(rows − 2·(h/2)) × (cols − 2·(w/2))` source cells (truncated `Nat`
subtraction); when the table's height and width are both even this equals
the spec's `(rows − h) × (cols − w)` if both dimensions exceed the table's
and 0 otherwise. -/
theorem sweepPix_length (rtable : GhoughTable) (rimg : Img) :
    ((sweepPix (rtable.sz.2 / 2) (rtable.sz.1 / 2) rimg.rows rimg.cols).length
      = (rimg.rows - rtable.sz.2 / 2 - rtable.sz.2 / 2)
        * (rimg.cols - rtable.sz.1 / 2 - rtable.sz.1 / 2))
    ∧ (rtable.sz.2 % 2 = 0 → rtable.sz.1 % 2 = 0 →
        (sweepPix (rtable.sz.2 / 2) (rtable.sz.1 / 2) rimg.rows rimg.cols).length
          = if rimg.rows > rtable.sz.2 ∧ rimg.cols > rtable.sz.1
            then (rimg.rows - rtable.sz.2) * (rimg.cols - rtable.sz.1)
            else 0) := by
  have hmain : (sweepPix (rtable.sz.2 / 2) (rtable.sz.1 / 2) rimg.rows rimg.cols).length
      = (rimg.rows - rtable.sz.2 / 2 - rtable.sz.2 / 2)
        * (rimg.cols - rtable.sz.1 / 2 - rtable.sz.1 / 2) := by
    rw [sweepPix, length_flatMap_const _ _
        (rimg.cols - rtable.sz.1 / 2 - rtable.sz.1 / 2)
        (fun a _ => by rw [List.length_map, List.length_range']),
      List.length_range']
  refine ⟨hmain, ?_⟩
  intro h2 h1
  rw [hmain,
    show rimg.rows - rtable.sz.2 / 2 - rtable.sz.2 / 2 = rimg.rows - rtable.sz.2 by omega,
    show rimg.cols - rtable.sz.1 / 2 - rtable.sz.1 / 2 = rimg.cols - rtable.sz.1 by omega]
  by_cases hc : rimg.rows > rtable.sz.2 ∧ rimg.cols > rtable.sz.1
  · rw [if_pos hc]
  · rw [if_neg hc]
    have : rimg.rows - rtable.sz.2 = 0 ∨ rimg.cols - rtable.sz.1 = 0 := by omega
    rcases this with h | h <;> rw [h] <;> ring

theorem sweepPix_length_witness :
    (tblEven.sz.2 % 2 = 0) ∧ (tblEven.sz.1 % 2 = 0)
    ∧ ((sweepPix (tblEven.sz.2 / 2) (tblEven.sz.1 / 2) img5x4.rows img5x4.cols).length
        = if img5x4.rows > tblEven.sz.2 ∧ img5x4.cols > tblEven.sz.1
          then (img5x4.rows - tblEven.sz.2) * (img5x4.cols - tblEven.sz.1)
          else 0) :=
  ⟨rfl, rfl, (sweepPix_length tblEven img5x4).2 rfl rfl⟩

/-- C5 (counterexample): for a 1×1 table and a 1×1 image the bounded sweep
visits 1 cell, while the spec's formula predicts 0 (the dimensions do not
exceed the table's). -/
theorem sweepPix_length_claim_false :
    ¬ ((sweepPix (tbl1x1.sz.2 / 2) (tbl1x1.sz.1 / 2) img1x1.rows img1x1.cols).length
        = if img1x1.rows > tbl1x1.sz.2 ∧ img1x1.cols > tbl1x1.sz.1
          then (img1x1.rows - tbl1x1.sz.2) * (img1x1.cols - tbl1x1.sz.1)
          else 0) := by
  decide

/-- An out-of-bounds cell of the all-pixel transform's output is never
written: it stays 0 whatever the table holds. -/
theorem allpix_acc_oob (rimg : Img) (rtable : GhoughTable) (my mx : ℤ)
    (hoob : ¬ (0 ≤ my ∧ my < (rimg.rows : ℤ) ∧ 0 ≤ mx ∧ mx < (rimg.cols : ℤ))) :
    (apply_ghough_transform_allpix rimg rtable).acc my mx = 0 := by
  show foldVotesChecked rimg.rows rimg.cols
      (voteTargets rimg rtable (interiorPix rimg.rows rimg.cols)) (fun _ _ => 0) my mx = 0
  rw [foldVotesChecked_acc, evsSumAt, List.filter_filter,
    List.filter_eq_nil_iff.mpr (by
      intro e _ hc
      simp only [Bool.and_eq_true, decide_eq_true_eq] at hc
      obtain ⟨het, hb⟩ := hc
      rw [het] at hb
      exact hoob ⟨hb.2.2.1, hb.2.2.2, hb.1, hb.2.1⟩)]
  rfl

/-- An in-bounds cell of the all-pixel transform's output holds the total
weight of the vote events that target it. -/
theorem allpix_acc_inbounds (rimg : Img) (rtable : GhoughTable) (my mx : ℤ)
    (hin : 0 ≤ my ∧ my < (rimg.rows : ℤ) ∧ 0 ≤ mx ∧ mx < (rimg.cols : ℤ)) :
    (apply_ghough_transform_allpix rimg rtable).acc my mx
      = evsSumAt (voteTargets rimg rtable (interiorPix rimg.rows rimg.cols)) my mx := by
  show foldVotesChecked rimg.rows rimg.cols
      (voteTargets rimg rtable (interiorPix rimg.rows rimg.cols)) (fun _ _ => 0) my mx = _
  rw [foldVotesChecked_acc, evsSumAt, evsSumAt, List.filter_filter]
  have heq : (List.filter
      (fun e => decide (e.1 = (my, mx))
        && decide (0 ≤ e.1.2 ∧ e.1.2 < (rimg.cols : ℤ) ∧ 0 ≤ e.1.1 ∧ e.1.1 < (rimg.rows : ℤ)))
      (voteTargets rimg rtable (interiorPix rimg.rows rimg.cols)))
      = (voteTargets rimg rtable (interiorPix rimg.rows rimg.cols)).filter
          (fun e => decide (e.1 = (my, mx))) := by
    apply List.filter_congr
    intro e _
    by_cases het : e.1 = (my, mx)
    · have hb : decide (0 ≤ e.1.2 ∧ e.1.2 < (rimg.cols : ℤ)
          ∧ 0 ≤ e.1.1 ∧ e.1.1 < (rimg.rows : ℤ)) = true := by
        rw [decide_eq_true_eq, het]
        exact ⟨hin.2.2.1, hin.2.2.2, hin.1, hin.2.1⟩
      rw [hb, Bool.and_true]
    · have hf : decide (e.1 = (my, mx)) = false := by
        simp [het]
      rw [hf, Bool.false_and]
  rw [heq]
  omega

/-- C6: the all-pixel sweep never writes outside the accumulator's bounds —
for every live image and every table (arbitrary offsets) each out-of-bounds
cell of the output stays 0, and every in-bounds cell holds exactly the
unchecked sum of the same vote stream. -/
theorem apply_ghough_transform_allpix_safe (rimg : Img) (rtable : GhoughTable) :
    (∀ my mx : ℤ,
      ¬ (0 ≤ my ∧ my < (rimg.rows : ℤ) ∧ 0 ≤ mx ∧ mx < (rimg.cols : ℤ)) →
        (apply_ghough_transform_allpix rimg rtable).acc my mx = 0)
    ∧ (∀ my mx : ℤ,
        (0 ≤ my ∧ my < (rimg.rows : ℤ) ∧ 0 ≤ mx ∧ mx < (rimg.cols : ℤ)) →
        (apply_ghough_transform_allpix rimg rtable).acc my mx
          = foldVotes (voteTargets rimg rtable (interiorPix rimg.rows rimg.cols))
              (fun _ _ => 0) my mx) := by
  refine ⟨allpix_acc_oob rimg rtable, ?_⟩
  intro my mx hin
  rw [allpix_acc_inbounds rimg rtable my mx hin, foldVotes_acc]
  omega

theorem apply_ghough_transform_allpix_safe_witness :
    ((apply_ghough_transform_allpix liveT3 tblFar).acc 101 101 = 0)
    ∧ ((apply_ghough_transform_allpix liveT3 tblFar).acc 1 1
        = foldVotes (voteTargets liveT3 tblFar (interiorPix liveT3.rows liveT3.cols))
            (fun _ _ => 0) 1 1) :=
  ⟨(apply_ghough_transform_allpix_safe liveT3 tblFar).1 101 101 (by decide),
   (apply_ghough_transform_allpix_safe liveT3 tblFar).2 1 1 (by decide)⟩

/-! ### Bounds of the bounded sweep -/

theorem num_le_den_of_le_one {q : ℚ} (h : q ≤ 1) : q.num ≤ (q.den : ℤ) := by
  have := Rat.le_def.mp h
  simpa using this

theorem clampScale_pos (s : ℚ) : 0 < clampScale s := by
  simp only [clampScale]
  by_cases h1 : s < oneTenth
  · rw [if_pos h1]
    by_cases h2 : oneTenth > qTen
    · rw [if_pos h2, qTen_eq]
      norm_num
    · rw [if_neg h2, oneTenth_eq]
      norm_num
  · rw [if_neg h1]
    by_cases h2 : s > qTen
    · rw [if_pos h2, qTen_eq]
      norm_num
    · rw [if_neg h2]
      have h3 : oneTenth ≤ s := le_of_not_lt h1
      rw [oneTenth_eq] at h3
      linarith

theorem clampScale_le_one {s : ℚ} (h : s ≤ 1) : clampScale s ≤ 1 := by
  simp only [clampScale]
  by_cases h1 : s < oneTenth
  · rw [if_pos h1, if_neg (by rw [oneTenth_eq, qTen_eq]; norm_num), oneTenth_eq]
    norm_num
  · rw [if_neg h1, if_neg (by rw [qTen_eq]; intro hc; linarith)]
    exact h

/-- For a factor in (0, 1], truncated-toward-zero scaling never increases a
displacement's magnitude and never flips its sign. -/
theorem truncMul_bounds (fac : ℚ) (hpos : 0 < fac) (hle : fac ≤ 1) (k : ℤ) :
    min k 0 ≤ truncMul fac k ∧ truncMul fac k ≤ max k 0 := by
  have hd : (0 : ℤ) < (fac.den : ℤ) := by
    exact_mod_cast fac.den_pos
  have hn : 0 < fac.num := Rat.num_pos.mpr hpos
  have hnd : fac.num ≤ (fac.den : ℤ) := num_le_den_of_le_one hle
  have hmain : ∀ m : ℤ, 0 ≤ m → 0 ≤ truncMul fac m ∧ truncMul fac m ≤ m := by
    intro m hm
    rw [truncMul, Int.tdiv_eq_ediv (mul_nonneg hn.le hm) (by omega)]
    constructor
    · exact Int.ediv_nonneg (mul_nonneg hn.le hm) (by omega)
    · calc fac.num * m / (fac.den : ℤ)
          ≤ (fac.den : ℤ) * m / (fac.den : ℤ) :=
            Int.ediv_le_ediv hd (mul_le_mul_of_nonneg_right hnd hm)
        _ = m := Int.mul_ediv_cancel_left m (by omega)
  rcases le_or_lt 0 k with hk | hk
  · have := hmain k hk
    omega
  · have hneg : truncMul fac k = - truncMul fac (-k) := by
      rw [truncMul, truncMul, show fac.num * -k = -(fac.num * k) from by ring,
        Int.neg_tdiv]
      omega
    have := hmain (-k) (by omega)
    rw [hneg]
    omega

/-- Every entry of a slot of the built table is the scaled centering offset of
some member pixel of the encoded template. -/
theorem create_ghough_table_elem_mem (rbgrad : Img) (rflags : T_256_flags)
    (scale : ℚ) (c : Nat) (e : Pt × Nat)
    (he : e ∈ (create_ghough_table rbgrad rflags scale).elem c) :
    ∃ q ∈ pixList rbgrad.rows rbgrad.cols,
      rbgrad.px q.1 q.2 = c ∧ rflags.get c = true
      ∧ e.1 = scaledPt (clampScale scale) (rbgrad.rows / 2) (rbgrad.cols / 2)
          q.1 q.2 := by
  have hwf := create_ghough_table_wf rbgrad rflags scale
  rcases lutGet_cases (create_ghough_table rbgrad rflags scale).lut c with h0 | hr
  · rw [GhoughTable.elem, h0] at he
    simp at he
  · obtain ⟨r, hr, hrc, hrv⟩ := hr
    rw [GhoughTable.elem, hrv] at he
    have hw := (hwf.2 r hr).2.2 e he
    have hv : 0 < (create_ghough_table rbgrad rflags scale).votesFor c e.1 := by
      rw [GhoughTable.votesFor, GhoughTable.elem, hrv]
      exact listVotes_pos_of_mem r.2 e he hw
    rw [create_ghough_table_votesFor] at hv
    obtain ⟨q, hq, hpred⟩ := List.countP_pos_iff.mp hv
    simp only [Bool.and_eq_true, beq_iff_eq] at hpred
    exact ⟨q, hq, hpred.1.1, hpred.1.2, hpred.2.symm⟩

/-- C4 (counterexample): a Vote Table built at scale 10.0 — inside the claimed
clamped range — makes the bounded sweep write accumulator cell (11, 11) of a
3×3 output image: the vote target lies outside the output bounds. -/
theorem apply_ghough_transform_oob_write :
    ((apply_ghough_transform liveT3
        (create_ghough_table imgT3 flagsCode1 10)).acc 11 11 = 1)
    ∧ ¬ ((11 : ℤ) <
        ((apply_ghough_transform liveT3
          (create_ghough_table imgT3 flagsCode1 10)).rows : ℤ)) := by
  decide

/-- C4 (amended): for every template image, Membership Set, live image and
requested scale ≤ 1, every vote of the bounded sweep
(`apply_ghough_transform` iterating `[table.sz/2, dim − table.sz/2)` in both
axes) targets an accumulator cell inside the output image bounds, with no
per-vote range check needed. -/
theorem apply_ghough_transform_inbounds (tmpl : Img) (rflags : T_256_flags)
    (scale : ℚ) (hs : scale ≤ 1) (rimg : Img) :
    ∀ e ∈ voteTargets rimg (create_ghough_table tmpl rflags scale)
        (sweepPix ((create_ghough_table tmpl rflags scale).sz.2 / 2)
          ((create_ghough_table tmpl rflags scale).sz.1 / 2) rimg.rows rimg.cols),
      0 ≤ e.1.2 ∧ e.1.2 < (rimg.cols : ℤ) ∧ 0 ≤ e.1.1 ∧ e.1.1 < (rimg.rows : ℤ) := by
  intro e he
  rw [voteTargets, List.mem_flatMap] at he
  obtain ⟨q, hq, he2⟩ := he
  rw [List.mem_map] at he2
  obtain ⟨en, hen, rfl⟩ := he2
  obtain ⟨a, ha, hcode, hfl, hpt⟩ :=
    create_ghough_table_elem_mem tmpl rflags scale _ en hen
  have hsz : (create_ghough_table tmpl rflags scale).sz = (tmpl.cols, tmpl.rows) := rfl
  rw [hsz] at hq
  have hsw := mem_sweepPix (tmpl.rows / 2) (tmpl.cols / 2) rimg.rows rimg.cols q hq
  have hb1 := (mem_pixList tmpl.rows tmpl.cols a).mp ha
  have hfac1 : 0 < clampScale scale := clampScale_pos scale
  have hfac2 : clampScale scale ≤ 1 := clampScale_le_one hs
  have hx := truncMul_bounds (clampScale scale) hfac1 hfac2
    (((tmpl.cols / 2 : Nat) : ℤ) - (a.2 : ℤ))
  have hy := truncMul_bounds (clampScale scale) hfac1 hfac2
    (((tmpl.rows / 2 : Nat) : ℤ) - (a.1 : ℤ))
  rw [hpt, scaledPt]
  dsimp only
  omega

theorem apply_ghough_transform_inbounds_witness :
    ((1 : ℚ) ≤ 1)
    ∧ (∀ e ∈ voteTargets liveT3 (create_ghough_table imgT3 flagsCode1 1)
          (sweepPix ((create_ghough_table imgT3 flagsCode1 1).sz.2 / 2)
            ((create_ghough_table imgT3 flagsCode1 1).sz.1 / 2)
            liveT3.rows liveT3.cols),
        0 ≤ e.1.2 ∧ e.1.2 < (liveT3.cols : ℤ)
        ∧ 0 ≤ e.1.1 ∧ e.1.1 < (liveT3.rows : ℤ)) :=
  ⟨le_refl 1, apply_ghough_transform_inbounds imgT3 flagsCode1 1 (le_refl 1) liveT3⟩

/-! ### Round trip: table built from a template, replayed on the padded template -/

theorem ite_lt_256 {c : Prop} [Decidable c] {x y : Nat} (hx : x < 256)
    (hy : y < 256) : (if c then x else y) < 256 := by
  split
  · exact hx
  · exact hy

theorem encBits_lt (q a b c d e f g h : Nat) :
    (if q > a then 1 else 0) + (if q > b then 2 else 0) + (if q > c then 4 else 0)
    + (if q > d then 8 else 0) + (if q > e then 16 else 0) + (if q > f then 32 else 0)
    + (if q > g then 64 else 0) + (if q > h then 128 else 0) < 256 := by
  split_ifs <;> omega

theorem cmp8_px_lt_256 (img : Img) (rng i j : Nat) :
    (cmp8NeighborsGTRng img rng).px i j < 256 := by
  simp only [cmp8NeighborsGTRng]
  refine ite_lt_256 ?_ (by omega)
  simp only [encPixel]
  refine ite_lt_256 ?_ (by omega)
  exact encBits_lt _ _ _ _ _ _ _ _ _

theorem get_presentFlags_iff (E : Img) (c : Nat) :
    (presentFlags E).get c = true
      ↔ (c < 256 ∧ c ≠ 0 ∧ codePresent E c = true) := by
  rw [presentFlags,
    T_256_flags.get_foldl_set _ _ (by rfl)
      (by
        intro x hx
        rw [List.mem_filter] at hx
        exact List.mem_range.mp hx.1) c,
    T_256_flags.get_empty]
  simp only [Bool.false_or, List.any_eq_true, List.mem_filter, List.mem_range,
    beq_iff_eq, Bool.and_eq_true, bne_iff_ne, ne_eq]
  constructor
  · rintro ⟨x, ⟨hx, hx0, hxp⟩, rfl⟩
    exact ⟨hx, hx0, hxp⟩
  · rintro ⟨hc, hc0, hcp⟩
    exact ⟨c, ⟨hc, hc0, hcp⟩, rfl⟩

theorem get_presentFlags_zero (E : Img) : (presentFlags E).get 0 = false := by
  by_contra h
  rw [Bool.not_eq_false, get_presentFlags_iff] at h
  exact h.2.1 rfl

theorem clampScale_one : clampScale 1 = 1 := by
  have h1 : ¬ ((1 : ℚ) < oneTenth) := by
    rw [oneTenth_eq]
    norm_num
  have h2 : ¬ ((1 : ℚ) > qTen) := by
    rw [qTen_eq]
    norm_num
  simp only [clampScale, if_neg h1, if_neg h2]

theorem truncMul_one (k : ℤ) : truncMul 1 k = k := by
  rw [truncMul]
  norm_num [Int.tdiv_one]

theorem scaledPt_one (ro co i j : Nat) :
    scaledPt 1 ro co i j = ((co : ℤ) - (j : ℤ), (ro : ℤ) - (i : ℤ)) := by
  rw [scaledPt, truncMul_one]
  rw [truncMul_one]

theorem evsSumAt_append (l1 l2 : List ((ℤ × ℤ) × Nat)) (my mx : ℤ) :
    evsSumAt (l1 ++ l2) my mx = evsSumAt l1 my mx + evsSumAt l2 my mx := by
  rw [evsSumAt, evsSumAt, evsSumAt, List.filter_append, List.map_append,
    List.sum_append]

theorem evsSumAt_map_entries (q : Nat × Nat) (m : List (Pt × Nat)) (my mx : ℤ) :
    evsSumAt (m.map (fun e => (((q.1 : ℤ) + e.1.2, (q.2 : ℤ) + e.1.1), e.2))) my mx
      = listVotes m (mx - (q.2 : ℤ), my - (q.1 : ℤ)) := by
  induction m with
  | nil => rfl
  | cons e es ih =>
    rw [List.map_cons, evsSumAt_cons, ih, listVotes_cons]
    have hiff : (((q.1 : ℤ) + e.1.2, (q.2 : ℤ) + e.1.1) = (my, mx))
        ↔ e.1 = (mx - (q.2 : ℤ), my - (q.1 : ℤ)) := by
      rw [Prod.ext_iff, Prod.ext_iff]
      constructor
      · rintro ⟨h1, h2⟩
        exact ⟨by omega, by omega⟩
      · rintro ⟨h1, h2⟩
        exact ⟨by omega, by omega⟩
    by_cases h : e.1 = (mx - (q.2 : ℤ), my - (q.1 : ℤ))
    · rw [if_pos (by dsimp only; exact hiff.mpr h), if_pos h]
    · rw [if_neg (by dsimp only; exact fun hc => h (hiff.mp hc)), if_neg h]

theorem evsSumAt_voteTargets (rimg : Img) (rtable : GhoughTable)
    (pix : List (Nat × Nat)) (my mx : ℤ) :
    evsSumAt (voteTargets rimg rtable pix) my mx
      = (pix.map (fun q => listVotes (rtable.elem (rimg.px q.1 q.2))
          (mx - (q.2 : ℤ), my - (q.1 : ℤ)))).sum := by
  induction pix with
  | nil => rfl
  | cons q qs ih =>
    rw [voteTargets, List.flatMap_cons, evsSumAt_append, evsSumAt_map_entries,
      List.map_cons, List.sum_cons]
    rw [show (qs.flatMap fun q =>
        (rtable.elem (rimg.px q.1 q.2)).map (fun e =>
          (((q.1 : ℤ) + e.1.2, (q.2 : ℤ) + e.1.1), e.2)))
      = voteTargets rimg rtable qs from rfl, ih]

theorem sum_map_flatMap {α β : Type _} (l : List α) (f : α → List β) (g : β → Nat) :
    ((l.flatMap f).map g).sum = (l.map (fun a => ((f a).map g).sum)).sum := by
  induction l with
  | nil => rfl
  | cons x xs ih =>
    rw [List.flatMap_cons, List.map_append, List.sum_append, List.map_cons,
      List.sum_cons, ih]

/-- Summing a function over the interior indices `[1, n − 1)` of a padded axis
equals summing its shifts over the unpadded axis, when the function vanishes
off the padded window. -/
theorem sum_range'_window (g : Nat → Nat) (pad R n : Nat) (hpad : 1 ≤ pad)
    (hn : n = R + 2 * pad)
    (hz : ∀ i, (i < pad ∨ pad + R ≤ i) → g i = 0) :
    ((List.range' 1 (n - 2)).map g).sum
      = ((List.range R).map (fun b => g (pad + b))).sum := by
  have hsplit : List.range' 1 (n - 2)
      = (List.range' 1 (pad - 1) ++ List.range' pad R) ++ List.range' (pad + R) (pad - 1) := by
    have h1 : List.range' 1 (pad - 1) ++ List.range' pad R = List.range' 1 (R + (pad - 1)) := by
      have := List.range'_append 1 (pad - 1) R 1
      rw [show 1 + 1 * (pad - 1) = pad by omega] at this
      exact this
    have h2 : List.range' 1 (R + (pad - 1)) ++ List.range' (pad + R) (pad - 1)
        = List.range' 1 ((pad - 1) + (R + (pad - 1))) := by
      have := List.range'_append 1 (R + (pad - 1)) (pad - 1) 1
      rw [show 1 + 1 * (R + (pad - 1)) = pad + R by omega] at this
      exact this
    rw [h1, h2, show (pad - 1) + (R + (pad - 1)) = n - 2 by omega]
  rw [hsplit, List.map_append, List.sum_append, List.map_append, List.sum_append]
  have hz1 : ((List.range' 1 (pad - 1)).map g).sum = 0 := by
    apply List.sum_eq_zero
    intro x hx
    rw [List.mem_map] at hx
    obtain ⟨i, hi, rfl⟩ := hx
    have := List.mem_range'_1.mp hi
    exact hz i (Or.inl (by omega))
  have hz2 : ((List.range' (pad + R) (pad - 1)).map g).sum = 0 := by
    apply List.sum_eq_zero
    intro x hx
    rw [List.mem_map] at hx
    obtain ⟨i, hi, rfl⟩ := hx
    have := List.mem_range'_1.mp hi
    exact hz i (Or.inr (by omega))
  rw [hz1, hz2, List.range'_eq_map_range, List.map_map]
  simp only [Function.comp_def]
  omega

/-- Replaying the scale-1.0 table of an encoded template against the
zero-padded template: each in-bounds accumulator cell counts the same-code
pixel pairs at the displacement the cell represents. -/
theorem allpix_roundtrip_acc (E : Img) (hE : ∀ i j, E.px i j < 256) (pad : Nat)
    (hpad : 1 ≤ pad) (my mx : ℤ)
    (hmy1 : 0 ≤ my) (hmy2 : my < ((E.rows + 2 * pad : ℕ) : ℤ))
    (hmx1 : 0 ≤ mx) (hmx2 : mx < ((E.cols + 2 * pad : ℕ) : ℤ)) :
    (apply_ghough_transform_allpix (padImg E pad)
        (create_ghough_table E (presentFlags E) 1)).acc my mx
      = pairCount E (my - pad - (E.rows / 2 : ℕ)) (mx - pad - (E.cols / 2 : ℕ)) := by
  have hzero : ∀ p : Pt,
      listVotes ((create_ghough_table E (presentFlags E) 1).elem 0) p = 0 := by
    intro p
    have h := create_ghough_table_votesFor E (presentFlags E) 1 0 p
    rw [GhoughTable.votesFor] at h
    rw [h]
    apply List.countP_eq_zero.mpr
    intro a _
    simp only [get_presentFlags_zero E, Bool.and_false, Bool.false_and,
      Bool.false_eq_true, not_false_eq_true]
  have hpx0 : ∀ i j : Nat,
      ((i < pad ∨ pad + E.rows ≤ i) ∨ (j < pad ∨ pad + E.cols ≤ j)) →
      (padImg E pad).px i j = 0 := by
    intro i j hij
    simp only [padImg]
    rw [if_neg (by omega)]
  have hpxw : ∀ b1 b2 : Nat, b1 < E.rows → b2 < E.cols →
      (padImg E pad).px (pad + b1) (pad + b2) = E.px b1 b2 := by
    intro b1 b2 h1 h2
    simp only [padImg]
    rw [if_pos (by omega)]
    congr 1
    · omega
    · omega
  rw [allpix_acc_inbounds (padImg E pad) _ my mx ⟨hmy1, hmy2, hmx1, hmx2⟩,
    evsSumAt_voteTargets, interiorPix, sum_map_flatMap]
  simp only [List.map_map, Function.comp_def]
  rw [show (padImg E pad).rows = E.rows + 2 * pad from rfl,
    show (padImg E pad).cols = E.cols + 2 * pad from rfl]
  rw [sum_range'_window _ pad E.rows (E.rows + 2 * pad) hpad rfl
    (by
      intro i hi
      apply List.sum_eq_zero
      intro x hx
      rw [List.mem_map] at hx
      obtain ⟨j, _, rfl⟩ := hx
      rw [hpx0 i j (Or.inl hi), hzero])]
  rw [pairCount, pixList, sum_map_flatMap]
  simp only [List.map_map, Function.comp_def]
  apply congrArg
  apply List.map_congr_left
  intro b1 hb1
  have hb1' : b1 < E.rows := List.mem_range.mp hb1
  rw [sum_range'_window _ pad E.cols (E.cols + 2 * pad) hpad rfl
    (by
      intro j hj
      rw [hpx0 (pad + b1) j (Or.inr hj), hzero])]
  apply congrArg
  apply List.map_congr_left
  intro b2 hb2
  have hb2' : b2 < E.cols := List.mem_range.mp hb2
  rw [hpxw b1 b2 hb1' hb2']
  by_cases hc : E.px b1 b2 = 0
  · rw [hc, hzero]
    rw [if_neg (by simp [hc])]
  · rw [if_pos (by simpa using hc)]
    have hchar := create_ghough_table_votesFor E (presentFlags E) 1 (E.px b1 b2)
      ((mx - ((pad + b2 : ℕ) : ℤ), my - ((pad + b1 : ℕ) : ℤ)))
    rw [GhoughTable.votesFor] at hchar
    rw [hchar, clampScale_one]
    have hfl : (presentFlags E).get (E.px b1 b2) = true :=
      (get_presentFlags_iff E (E.px b1 b2)).mpr
        ⟨hE b1 b2, hc, List.any_eq_true.mpr
          ⟨(b1, b2), (mem_pixList E.rows E.cols (b1, b2)).mpr ⟨hb1', hb2'⟩, by simp⟩⟩
    apply List.countP_congr
    intro a _
    rw [Bool.and_eq_true, Bool.and_eq_true, scaledPt_one]
    simp only [hfl, beq_iff_eq, decide_eq_true_eq, and_true, Prod.mk.injEq]
    constructor
    · rintro ⟨hcode, hoff⟩
      refine ⟨hcode, by omega, by omega⟩
    · rintro ⟨hcode, h1, h2⟩
      refine ⟨hcode, by omega, by omega⟩

theorem pixList_eq_product (rows cols : Nat) :
    pixList rows cols = List.range rows ×ˢ List.range cols := rfl

theorem pixList_nodup (rows cols : Nat) : (pixList rows cols).Nodup := by
  rw [pixList_eq_product]
  exact List.Nodup.product (List.nodup_range rows) (List.nodup_range cols)

theorem pixList_toFinset (rows cols : Nat) :
    (pixList rows cols).toFinset = Finset.range rows ×ˢ Finset.range cols := by
  apply Finset.ext
  intro q
  rw [List.mem_toFinset, mem_pixList, Finset.mem_product, Finset.mem_range,
    Finset.mem_range]

theorem countP_eq_sum_toFinset {α : Type _} [DecidableEq α] (l : List α)
    (hl : l.Nodup) (p : α → Bool) :
    l.countP p = ∑ a ∈ l.toFinset, if p a = true then 1 else 0 := by
  rw [List.countP_eq_length_filter, ← List.toFinset_card_of_nodup (hl.filter p),
    List.toFinset_filter, Finset.card_filter]

theorem map_sum_eq_sum_toFinset {α : Type _} [DecidableEq α] (l : List α)
    (hl : l.Nodup) (f : α → Nat) :
    (l.map f).sum = ∑ a ∈ l.toFinset, f a :=
  (List.sum_toFinset f hl).symm

/-- The accumulator-style nested count agrees with the cardinality of the
set of same-code pixel pairs at the given displacement. -/
theorem pairCount_eq_card (E : Img) (dy dx : ℤ) :
    pairCount E dy dx = (pairSet E dy dx).card := by
  rw [pairCount, pairSet, Finset.card_filter, Finset.sum_product,
    map_sum_eq_sum_toFinset _ (pixList_nodup _ _), pixList_toFinset]
  apply Finset.sum_congr rfl
  intro b _
  by_cases hbz : E.px b.1 b.2 ≠ 0
  · rw [if_pos hbz, countP_eq_sum_toFinset _ (pixList_nodup _ _), pixList_toFinset]
    apply Finset.sum_congr rfl
    intro a _
    simp only [decide_eq_true_eq]
    refine if_congr ?_ rfl rfl
    constructor
    · rintro ⟨h1, h2, h3⟩
      exact ⟨hbz, h1, h2, h3⟩
    · rintro ⟨_, h1, h2, h3⟩
      exact ⟨h1, h2, h3⟩
  · rw [if_neg hbz]
    symm
    apply Finset.sum_eq_zero
    intro a _
    rw [if_neg (by
      rintro ⟨h0, _⟩
      exact hbz h0)]

/-- At displacement zero the pair set is the diagonal of the feature set. -/
theorem pairSet_zero_card (E : Img) :
    (pairSet E 0 0).card = (memberSet E).card := by
  apply Finset.card_bij (fun r _ => r.1)
  · intro r hr
    rw [pairSet, Finset.mem_filter, Finset.mem_product] at hr
    rw [memberSet, Finset.mem_filter]
    exact ⟨hr.1.1, hr.2.1⟩
  · intro r1 h1 r2 h2 heq
    rw [pairSet, Finset.mem_filter] at h1 h2
    have e1 : r1.2 = r1.1 := by
      have d1 := h1.2.2.2.1
      have d2 := h1.2.2.2.2
      have : r1.2.1 = r1.1.1 := by omega
      have : r1.2.2 = r1.1.2 := by omega
      apply Prod.ext <;> omega
    have e2 : r2.2 = r2.1 := by
      have d1 := h2.2.2.2.1
      have d2 := h2.2.2.2.2
      apply Prod.ext <;> omega
    have : r1.1 = r2.1 := heq
    apply Prod.ext
    · exact this
    · rw [e1, e2, this]
  · intro b hb
    rw [memberSet, Finset.mem_filter] at hb
    refine ⟨(b, b), ?_, rfl⟩
    rw [pairSet, Finset.mem_filter, Finset.mem_product]
    exact ⟨⟨hb.1, hb.1⟩, hb.2, rfl, by dsimp only; omega, by dsimp only; omega⟩

/-- The key strictness fact: at a nonzero displacement, strictly fewer
same-code pairs exist than feature pixels (otherwise the finite feature set
would be closed under a nonzero translation, which its extremal element in
that direction forbids). -/
theorem pairSet_card_lt (E : Img) (dy dx : ℤ) (hd : ¬ (dy = 0 ∧ dx = 0))
    (hne : (memberSet E).Nonempty) :
    (pairSet E dy dx).card < (memberSet E).card := by
  by_contra hcon
  push_neg at hcon
  obtain ⟨m, hm, hmax⟩ := Finset.exists_max_image (memberSet E)
    (fun x => dy * (x.1 : ℤ) + dx * (x.2 : ℤ)) hne
  have hmaps : ∀ (r : (Nat × Nat) × (Nat × Nat)) (hr : r ∈ pairSet E dy dx),
      r.2 ∈ memberSet E := by
    intro r hr
    rw [pairSet, Finset.mem_filter, Finset.mem_product] at hr
    rw [memberSet, Finset.mem_filter]
    refine ⟨hr.1.2, ?_⟩
    rw [hr.2.2.1]
    exact hr.2.1
  have hinj : ∀ (r1 r2 : (Nat × Nat) × (Nat × Nat)) (h1 : r1 ∈ pairSet E dy dx)
      (h2 : r2 ∈ pairSet E dy dx), r1.2 = r2.2 → r1 = r2 := by
    intro r1 r2 h1 h2 heq
    rw [pairSet, Finset.mem_filter] at h1 h2
    have c1 := h1.2.2.2.1
    have c2 := h1.2.2.2.2
    have c3 := h2.2.2.2.1
    have c4 := h2.2.2.2.2
    have hq1 : r1.2.1 = r2.2.1 := by rw [heq]
    have hq2 : r1.2.2 = r2.2.2 := by rw [heq]
    have hfst : r1.1 = r2.1 := by
      apply Prod.ext <;> omega
    apply Prod.ext
    · exact hfst
    · exact heq
  obtain ⟨r, hr, hrm⟩ :=
    Finset.surj_on_of_inj_on_of_card_le (fun r _ => r.2) hmaps hinj hcon m hm
  have hb : r.1 ∈ memberSet E := by
    rw [pairSet, Finset.mem_filter, Finset.mem_product] at hr
    rw [memberSet, Finset.mem_filter]
    exact ⟨hr.1.1, hr.2.1⟩
  have hle := hmax r.1 hb
  rw [pairSet, Finset.mem_filter] at hr
  have c1 := hr.2.2.2.1
  have c2 := hr.2.2.2.2
  have hm1 : (m.1 : ℤ) = (r.2.1 : ℤ) := by rw [hrm]
  have hm2 : (m.2 : ℤ) = (r.2.2 : ℤ) := by rw [hrm]
  have hsq : 1 ≤ dy * dy + dx * dx := by
    have h1 : 0 ≤ dy * dy := mul_self_nonneg dy
    have h2 : 0 ≤ dx * dx := mul_self_nonneg dx
    rcases not_and_or.mp hd with h | h
    · have h3 : 1 ≤ |dy| := Int.one_le_abs h
      have h4 : 1 * 1 ≤ |dy| * |dy| :=
        mul_le_mul h3 h3 zero_le_one (abs_nonneg dy)
      rw [abs_mul_abs_self] at h4
      omega
    · have h3 : 1 ≤ |dx| := Int.one_le_abs h
      have h4 : 1 * 1 ≤ |dx| * |dx| :=
        mul_le_mul h3 h3 zero_le_one (abs_nonneg dx)
      rw [abs_mul_abs_self] at h4
      omega
  have hphi : dy * (r.1.1 : ℤ) + dx * (r.1.2 : ℤ)
      = dy * (m.1 : ℤ) + dx * (m.2 : ℤ) + (dy * dy + dx * dx) := by
    have e1 : (r.1.1 : ℤ) = (m.1 : ℤ) + dy := by omega
    have e2 : (r.1.2 : ℤ) = (m.2 : ℤ) + dx := by omega
    rw [e1, e2]
    ring
  simp only at hle hphi
  omega

/-- C1 (amended): round-trip invariant.  Encode a template with the
greater-than encoder, take the Membership Set of the nonzero codes present,
build a Vote Table at scale 1.0, and run the all-pixel Voting Transform on
the encoded template zero-padded by `pad ≥ 1` so the sweep covers the
template's center: provided the encoded template has at least one
nonzero-coded (feature) pixel, the accumulator has a strict global maximum at
the cell corresponding to the template's own center. -/
theorem ghough_round_trip_strict_max (tmpl : Img) (rng pad : Nat)
    (hpad : 1 ≤ pad)
    (hfeat : ∃ a b : Nat, a < tmpl.rows ∧ b < tmpl.cols
      ∧ (cmp8NeighborsGTRng tmpl rng).px a b ≠ 0)
    (my mx : ℤ)
    (hmy1 : 0 ≤ my) (hmy2 : my < ((tmpl.rows + 2 * pad : ℕ) : ℤ))
    (hmx1 : 0 ≤ mx) (hmx2 : mx < ((tmpl.cols + 2 * pad : ℕ) : ℤ))
    (hnc : (my, mx) ≠ (((pad + tmpl.rows / 2 : ℕ) : ℤ),
      ((pad + tmpl.cols / 2 : ℕ) : ℤ))) :
    (apply_ghough_transform_allpix
        (padImg (cmp8NeighborsGTRng tmpl rng) pad)
        (create_ghough_table (cmp8NeighborsGTRng tmpl rng)
          (presentFlags (cmp8NeighborsGTRng tmpl rng)) 1)).acc my mx
      < (apply_ghough_transform_allpix
          (padImg (cmp8NeighborsGTRng tmpl rng) pad)
          (create_ghough_table (cmp8NeighborsGTRng tmpl rng)
            (presentFlags (cmp8NeighborsGTRng tmpl rng)) 1)).acc
          ((pad + tmpl.rows / 2 : ℕ) : ℤ) ((pad + tmpl.cols / 2 : ℕ) : ℤ) := by
  obtain ⟨a, b, ha, hb, hab⟩ := hfeat
  have hE : ∀ i j, (cmp8NeighborsGTRng tmpl rng).px i j < 256 :=
    cmp8_px_lt_256 tmpl rng
  have hrows : (cmp8NeighborsGTRng tmpl rng).rows = tmpl.rows := rfl
  have hcols : (cmp8NeighborsGTRng tmpl rng).cols = tmpl.cols := rfl
  have h1 := allpix_roundtrip_acc (cmp8NeighborsGTRng tmpl rng) hE pad hpad my mx
    hmy1 (by rw [hrows]; exact hmy2) hmx1 (by rw [hcols]; exact hmx2)
  have h2 := allpix_roundtrip_acc (cmp8NeighborsGTRng tmpl rng) hE pad hpad
    ((pad + tmpl.rows / 2 : ℕ) : ℤ) ((pad + tmpl.cols / 2 : ℕ) : ℤ)
    (Int.natCast_nonneg _) (by rw [hrows]; push_cast; omega)
    (Int.natCast_nonneg _) (by rw [hcols]; push_cast; omega)
  rw [h1, h2]
  simp only [hrows, hcols]
  have hc1 : ((pad + tmpl.rows / 2 : ℕ) : ℤ) - (pad : ℤ)
      - ((tmpl.rows / 2 : ℕ) : ℤ) = 0 := by
    push_cast
    omega
  have hc2 : ((pad + tmpl.cols / 2 : ℕ) : ℤ) - (pad : ℤ)
      - ((tmpl.cols / 2 : ℕ) : ℤ) = 0 := by
    push_cast
    omega
  rw [hc1, hc2, pairCount_eq_card, pairCount_eq_card, pairSet_zero_card]
  apply pairSet_card_lt
  · rintro ⟨hdy, hdx⟩
    apply hnc
    rw [Prod.ext_iff]
    constructor
    · dsimp only
      push_cast
      push_cast at hdy
      omega
    · dsimp only
      push_cast
      push_cast at hdx
      omega
  · refine ⟨(a, b), ?_⟩
    rw [memberSet, Finset.mem_filter, Finset.mem_product]
    exact ⟨⟨Finset.mem_range.mpr ha, Finset.mem_range.mpr hb⟩, hab⟩

/-- C1 (counterexample): for a featureless template the round trip has NO
strict maximum at the center — a constant 3×3 template encodes to all zeros,
the table is empty, and the accumulator is identically zero, so the
off-center cell (1, 2) is not strictly below the center cell (2, 2). -/
theorem ghough_round_trip_fails_flat :
    ¬ ((apply_ghough_transform_allpix
        (padImg (cmp8NeighborsGTRng imgFlat 0) 1)
        (create_ghough_table (cmp8NeighborsGTRng imgFlat 0)
          (presentFlags (cmp8NeighborsGTRng imgFlat 0)) 1)).acc 1 2
      < (apply_ghough_transform_allpix
          (padImg (cmp8NeighborsGTRng imgFlat 0) 1)
          (create_ghough_table (cmp8NeighborsGTRng imgFlat 0)
            (presentFlags (cmp8NeighborsGTRng imgFlat 0)) 1)).acc 2 2) := by
  decide

theorem ghough_round_trip_strict_max_witness :
    (1 ≤ 1)
    ∧ ((cmp8NeighborsGTRng imgDot 0).px 1 1 ≠ 0)
    ∧ ((0 : ℤ), (0 : ℤ)) ≠ (((1 + imgDot.rows / 2 : ℕ) : ℤ),
        ((1 + imgDot.cols / 2 : ℕ) : ℤ))
    ∧ (apply_ghough_transform_allpix
        (padImg (cmp8NeighborsGTRng imgDot 0) 1)
        (create_ghough_table (cmp8NeighborsGTRng imgDot 0)
          (presentFlags (cmp8NeighborsGTRng imgDot 0)) 1)).acc 0 0
      < (apply_ghough_transform_allpix
          (padImg (cmp8NeighborsGTRng imgDot 0) 1)
          (create_ghough_table (cmp8NeighborsGTRng imgDot 0)
            (presentFlags (cmp8NeighborsGTRng imgDot 0)) 1)).acc
          ((1 + imgDot.rows / 2 : ℕ) : ℤ) ((1 + imgDot.cols / 2 : ℕ) : ℤ) :=
  ⟨le_refl 1, by decide, by decide,
   ghough_round_trip_strict_max imgDot 0 1 (le_refl 1)
     ⟨1, 1, by decide, by decide, by decide⟩ 0 0
     (by decide) (by decide) (by decide) (by decide) (by decide)⟩

end BGHMatcher
